import Mathlib

/-!
Verification of the orchestration and parsing layer of the beacons.ai
repository (annual_report_parser and company_profiler packages).

The development shallowly embeds the relevant Python functions over
`List Char` / `String`.  Python's `json.loads` / `json.dumps` (library
code, not repository code) are modelled by an executable strict-JSON
parser and printer: numbers are kept syntactically (sign, integer part,
fraction, exponent) rather than as floats, object members are kept as an
ordered association list, and the non-standard extensions Python accepts
(NaN, Infinity, lone-surrogate escapes) are outside the modelled grammar.
`json.dumps(x, indent=2)` is modelled by the compact printer: the two
differ only in inter-token whitespace, which the parser ignores, and the
claims compare parsed structures only.
-/

namespace Beacons

/-- Whitespace characters recognised by the JSON grammar (and by Python's
`json.loads` between tokens). -/
def isJsonWs (c : Char) : Bool :=
  c = ' ' || c = '\t' || c = '\n' || c = '\r'

/-- ASCII whitespace stripped by Python's `str.strip()` (a superset of the
JSON whitespace set). -/
def isPyWs (c : Char) : Bool :=
  isJsonWs c || c = '\x0b' || c = '\x0c'

/-- Drop JSON whitespace from the front of the input. -/
def skipWs (cs : List Char) : List Char := cs.dropWhile isJsonWs

/-- ASCII decimal digit test. -/
def isDigitC (c : Char) : Bool := '0' ≤ c && c ≤ '9'

/-- Python `str.strip()` on a character list. -/
def pyTrim (cs : List Char) : List Char :=
  ((cs.dropWhile isPyWs).reverse.dropWhile isPyWs).reverse

/-- Python `str.strip()` on a string. -/
def pyStrip (s : String) : String := ⟨pyTrim s.data⟩

/-- Does `delim` occur at the head of `cs`? -/
def hasPre : List Char → List Char → Bool
  | [], _ => true
  | _ :: _, [] => false
  | n :: ns, h :: hs => n = h && hasPre ns hs

/-- Substring occurrence test (`needle in haystack` in Python). -/
def hasSub (needle : List Char) : List Char → Bool
  | [] => hasPre needle []
  | c :: rest => hasPre needle (c :: rest) || hasSub needle rest

/-- Hexadecimal digit value, if any. -/
def hexVal? (c : Char) : Option Nat :=
  if '0' ≤ c && c ≤ '9' then some (c.toNat - 48)
  else if 'a' ≤ c && c ≤ 'f' then some (c.toNat - 87)
  else if 'A' ≤ c && c ≤ 'F' then some (c.toNat - 55)
  else none

/-- JSON values.  Numbers are stored syntactically as the exact literal
consumed from the input (e.g. `1.20` is kept as the characters `1.20`),
so that value equality is literal equality; the claims compare parsed
structures, which this refines. -/
inductive Json where
  | null
  | bool (b : Bool)
  | num (lit : List Char)
  | str (s : List Char)
  | arr (elems : List Json)
  | obj (members : List (List Char × Json))
  deriving Repr

/-- Simple two-character escapes of the JSON string grammar. -/
def escMap (e : Char) : Option Char :=
  if e = '"' then some '"'
  else if e = '\\' then some '\\'
  else if e = '/' then some '/'
  else if e = 'b' then some '\x08'
  else if e = 'f' then some '\x0c'
  else if e = 'n' then some '\n'
  else if e = 'r' then some '\r'
  else if e = 't' then some '\t'
  else none

/-- Parse the body of a JSON string (the opening quote has been consumed);
returns the decoded characters and the input after the closing quote.
Raw control characters are rejected as in Python's strict mode; `\uXXXX`
escapes are accepted for valid (non-surrogate) scalar values. -/
def parseStringBody : List Char → Option (List Char × List Char)
  | [] => none
  | c :: rest =>
    if c = '"' then some ([], rest)
    else if c = '\\' then
      match rest with
      | [] => none
      | e :: rest₂ =>
        if e = 'u' then
          match rest₂ with
          | a :: b :: c₂ :: d :: rest₃ =>
            match hexVal? a, hexVal? b, hexVal? c₂, hexVal? d with
            | some ha, some hb, some hc, some hd =>
              let n := ((ha * 16 + hb) * 16 + hc) * 16 + hd
              if n < 0xd800 || 0xe000 ≤ n then
                (parseStringBody rest₃).map (fun p => (Char.ofNat n :: p.1, p.2))
              else none
            | _, _, _, _ => none
          | _ => none
        else
          match escMap e with
          | some ec => (parseStringBody rest₂).map (fun p => (ec :: p.1, p.2))
          | none => none
    else if c.toNat < 0x20 then none
    else (parseStringBody rest).map (fun p => (c :: p.1, p.2))

/-- Longest digit run at the front of the input, and the rest. -/
def digitsSpan (cs : List Char) : List Char × List Char :=
  (cs.takeWhile isDigitC, cs.dropWhile isDigitC)

/-- Integer part of a JSON number: `0`, or a nonzero digit followed by
further digits (maximal munch, as Python's number regex). -/
def parseIntPart : List Char → Option (List Char × List Char)
  | [] => none
  | c :: rest =>
    if c = '0' then some (['0'], rest)
    else if isDigitC c then
      some (c :: (digitsSpan rest).1, (digitsSpan rest).2)
    else none

/-- Optional fraction part `.digits`, returned as the consumed span; on a
bare `.` with no digit nothing is consumed (the regex backtracks). -/
def fracSpan (cs : List Char) : List Char × List Char :=
  match cs with
  | [] => ([], [])
  | c :: rest =>
    if c = '.' then
      if (digitsSpan rest).1 = [] then ([], c :: rest)
      else ('.' :: (digitsSpan rest).1, (digitsSpan rest).2)
    else ([], c :: rest)

/-- Optional exponent part `[eE][+-]?digits`, returned as the consumed
span; nothing is consumed when no digits follow (the regex backtracks). -/
def expSpan (cs : List Char) : List Char × List Char :=
  match cs with
  | [] => ([], [])
  | [e] => ([], [e])
  | e :: s :: rest =>
    if (e = 'e' || e = 'E') && (s = '+' || s = '-') then
      if (digitsSpan rest).1 = [] then ([], e :: s :: rest)
      else (e :: s :: (digitsSpan rest).1, (digitsSpan rest).2)
    else if e = 'e' || e = 'E' then
      if (digitsSpan (s :: rest)).1 = [] then ([], e :: s :: rest)
      else (e :: (digitsSpan (s :: rest)).1, (digitsSpan (s :: rest)).2)
    else ([], e :: s :: rest)

/-- Parse a JSON number (maximal munch, following Python's NUMBER_RE);
the produced value carries the exact consumed literal. -/
def parseNumber (cs : List Char) : Option (Json × List Char) :=
  match cs with
  | [] => none
  | c :: cs₁ =>
    if c = '-' then
      match parseIntPart cs₁ with
      | none => none
      | some (ip, cs₂) =>
        some (.num ('-' :: ip ++ (fracSpan cs₂).1 ++ (expSpan (fracSpan cs₂).2).1),
          (expSpan (fracSpan cs₂).2).2)
    else
      match parseIntPart (c :: cs₁) with
      | none => none
      | some (ip, cs₂) =>
        some (.num (ip ++ (fracSpan cs₂).1 ++ (expSpan (fracSpan cs₂).2).1),
          (expSpan (fracSpan cs₂).2).2)

mutual

/-- Parse one JSON value at the head of the input (no leading whitespace),
with explicit fuel; returns the value and the unconsumed input. -/
def parseVal : Nat → List Char → Option (Json × List Char)
  | 0, _ => none
  | f + 1, cs =>
    match cs with
    | [] => none
    | c :: rest =>
      if c = '"' then (parseStringBody rest).map (fun p => (Json.str p.1, p.2))
      else if c = '{' then
        if (skipWs rest).head? = some '}' then some (Json.obj [], (skipWs rest).tail)
        else (parseMembers f (skipWs rest)).map (fun p => (Json.obj p.1, p.2))
      else if c = '[' then
        if (skipWs rest).head? = some ']' then some (Json.arr [], (skipWs rest).tail)
        else (parseElems f (skipWs rest)).map (fun p => (Json.arr p.1, p.2))
      else if c = 't' then
        if hasPre ['r', 'u', 'e'] rest then some (Json.bool true, rest.drop 3) else none
      else if c = 'f' then
        if hasPre ['a', 'l', 's', 'e'] rest then some (Json.bool false, rest.drop 4) else none
      else if c = 'n' then
        if hasPre ['u', 'l', 'l'] rest then some (Json.null, rest.drop 3) else none
      else parseNumber (c :: rest)

/-- Parse a nonempty comma-separated member list of an object, consuming
the closing `}`.  Expects the first key's quote at the head. -/
def parseMembers : Nat → List Char → Option (List (List Char × Json) × List Char)
  | 0, _ => none
  | f + 1, cs =>
    match cs with
    | [] => none
    | c :: rest =>
      if c = '"' then
        match parseStringBody rest with
        | none => none
        | some (key, cs₂) =>
          if (skipWs cs₂).head? = some ':' then
            match parseVal f (skipWs ((skipWs cs₂).tail)) with
            | none => none
            | some (v, cs₄) =>
              if (skipWs cs₄).head? = some ',' then
                match parseMembers f (skipWs ((skipWs cs₄).tail)) with
                | none => none
                | some (ms, cs₆) => some ((key, v) :: ms, cs₆)
              else if (skipWs cs₄).head? = some '}' then
                some ([(key, v)], (skipWs cs₄).tail)
              else none
          else none
      else none

/-- Parse a nonempty comma-separated element list of an array, consuming
the closing `]`.  Expects the first value at the head. -/
def parseElems : Nat → List Char → Option (List Json × List Char)
  | 0, _ => none
  | f + 1, cs =>
    match parseVal f cs with
    | none => none
    | some (v, cs₂) =>
      if (skipWs cs₂).head? = some ',' then
        match parseElems f (skipWs ((skipWs cs₂).tail)) with
        | none => none
        | some (vs, cs₄) => some (v :: vs, cs₄)
      else if (skipWs cs₂).head? = some ']' then some ([v], (skipWs cs₂).tail)
      else none

end

/-- Model of Python's `json.loads` on a character list: skip surrounding
whitespace, parse exactly one value, reject trailing data. -/
def loadsL (cs : List Char) : Option Json :=
  let cs₁ := skipWs cs
  match parseVal (cs₁.length + 1) cs₁ with
  | some (v, rest) => if skipWs rest = [] then some v else none
  | none => none

/-- Model of Python's `json.loads` on a string. -/
def loads (s : String) : Option Json := loadsL s.data

/-- Lower-case hexadecimal digit for `\uXXXX` escapes. -/
def hexDigit (n : Nat) : Char :=
  if n < 10 then Char.ofNat (48 + n) else Char.ofNat (87 + n)

/-- Escape one character of a JSON string as Python's `json.dumps` does
(with `ensure_ascii` irrelevant for the claims: non-ASCII characters are
emitted literally, which `json.loads` accepts either way). -/
def escapeChar (c : Char) : List Char :=
  if c = '"' then ['\\', '"']
  else if c = '\\' then ['\\', '\\']
  else if c = '\n' then ['\\', 'n']
  else if c = '\r' then ['\\', 'r']
  else if c = '\t' then ['\\', 't']
  else if c = '\x08' then ['\\', 'b']
  else if c = '\x0c' then ['\\', 'f']
  else if c.toNat < 0x20 then
    ['\\', 'u', '0', '0', hexDigit (c.toNat / 16), hexDigit (c.toNat % 16)]
  else [c]

/-- Printed form of a string literal, quotes included. -/
def printStr (s : List Char) : List Char :=
  '"' :: (s.map escapeChar).flatten ++ ['"']

mutual

/-- Compact printer, the model of `json.dumps` (see the header note on
`indent=2`). -/
def printVal : Json → List Char
  | .null => "null".data
  | .bool true => "true".data
  | .bool false => "false".data
  | .num lit => lit
  | .str s => printStr s
  | .arr [] => ['[', ']']
  | .arr (v :: vs) => '[' :: (printVal v ++ printElemsTail vs) ++ [']']
  | .obj [] => ['{', '}']
  | .obj (m :: ms) => '{' :: (printStr m.1 ++ ':' :: printVal m.2 ++ printMembersTail ms) ++ ['}']

/-- Remaining array elements, each preceded by a comma. -/
def printElemsTail : List Json → List Char
  | [] => []
  | v :: vs => ',' :: printVal v ++ printElemsTail vs

/-- Remaining object members, each preceded by a comma. -/
def printMembersTail : List (List Char × Json) → List Char
  | [] => []
  | m :: ms => ',' :: printStr m.1 ++ ':' :: printVal m.2 ++ printMembersTail ms

end

/-- Model of Python's `json.dumps` on a string. -/
def dumps (v : Json) : String := ⟨printVal v⟩

/-! Splitting on a fixed delimiter token, modelling Python's
`str.split(sep)` for a nonempty separator. -/

/-- Split at the first occurrence of `delim`, dropping the delimiter. -/
def breakOn (delim : List Char) : List Char → Option (List Char × List Char)
  | [] => none
  | c :: rest =>
    if hasPre delim (c :: rest) then some ([], (c :: rest).drop delim.length)
    else (breakOn delim rest).map (fun p => (c :: p.1, p.2))

/-- Fueled splitting loop. -/
def splitFuel (delim : List Char) : Nat → List Char → List (List Char)
  | 0, cs => [cs]
  | f + 1, cs =>
    match breakOn delim cs with
    | none => [cs]
    | some (a, b) => a :: splitFuel delim f b

/-- Python's `text.split(delim)` for a nonempty delimiter. -/
def splitOnL (delim cs : List Char) : List (List Char) :=
  splitFuel delim (cs.length + 1) cs

/-! The Message-Envelope Parser: `extract_a2ui_messages` from
`src/company_profiler/agent.py` (lines 22-54). -/

/-- The fixed delimiter token of the A2UI message protocol. -/
def a2uiDelim : List Char := "---a2ui_JSON---".data

/-- Model of `re.search(r'\{[\s\S]*\}', part)`: the greedy match runs from
the first `{` (that has some `}` after it) to the last `}` of the segment. -/
def greedyBraceSpan (part : List Char) : Option (List Char) :=
  let pre := part.dropWhile (· ≠ '{')
  let cand := (pre.reverse.dropWhile (· ≠ '}')).reverse
  if cand = [] then none else some cand

/-- Decode one stripped, non-empty segment: take the greedy `{...}` span,
strictly parse it, and keep the result only when it is an object
(`isinstance(parsed, dict)`). -/
def decodeSegment (part : List Char) : Option Json :=
  match greedyBraceSpan part with
  | none => none
  | some cand =>
    match loadsL cand with
    | some (Json.obj ms) => some (Json.obj ms)
    | _ => none

/-- Model of `extract_a2ui_messages` (`src/company_profiler/agent.py`):
split on the delimiter, strip each part, skip empty parts, decode each
remaining segment independently, appending successes in order. -/
def extract_a2ui_messages (text : String) : List Json :=
  (splitOnL a2uiDelim text.data).foldl
    (fun msgs part =>
      let part := pyTrim part
      if part = [] then msgs
      else
        match decodeSegment part with
        | some m => msgs ++ [m]
        | none => msgs)
    []

/-- The non-empty stripped segments of a blob, in order. -/
def nonEmptySegments (text : String) : List (List Char) :=
  ((splitOnL a2uiDelim text.data).map pyTrim).filter (fun s => !s.isEmpty)

/-! The Fan-In merge: `combine_company_data` from
`src/company_profiler/agent.py` (lines 105-127). -/

/-- Model of `combine_company_data`: for `i in range(5)` read the shard
slot `company_data_i`, parse it as JSON, and extend the accumulator when
the parse yields a list; anything else contributes nothing. -/
def combine_company_data (shards : Fin 5 → String) : List Json :=
  (List.finRange 5).foldl
    (fun acc i =>
      match loads (shards i) with
      | some (Json.arr l) => acc ++ l
      | _ => acc)
    []

/-! The Output Normalizer for the final summary: `format_final_output`
from `src/annual_report_parser/agent.py` (lines 200-215). -/

/-- Helper: does `cs` end with `suffix`? -/
def endsWithL (suffix cs : List Char) : Bool :=
  hasPre suffix.reverse cs.reverse

/-- Model of `format_final_output` (the summarizer's after-agent
callback): strip, remove a wrapping code fence when present, then strict
parse; on success the stage output is the re-serialised value, on failure
the raw summary text is kept unchanged. -/
def format_final_output (summary : String) : String :=
  let clean := pyTrim summary.data
  let clean :=
    if hasPre "```".data clean then
      let clean₁ := ((clean.drop 3).dropWhile (fun c => c.isAlpha)).dropWhile isPyWs
      if endsWithL "```".data clean₁ then
        ((clean₁.reverse.drop 3).dropWhile isPyWs).reverse
      else clean₁
    else clean
  match loadsL clean with
  | some v => dumps v
  | none => summary

/-! The domain-preference step of the Output Normalizer's pattern
fallback: `process_finder_output` from `src/annual_report_parser/agent.py`
(lines 145-157). -/

/-- ASCII lower-casing, as `str.lower()` acts on the ASCII URLs and
identifiers involved here. -/
def pyLowerChar (c : Char) : Char :=
  if 'A' ≤ c && c ≤ 'Z' then Char.ofNat (c.toNat + 32) else c

/-- The fixed trusted-domain allow-list `preferred_domains`. -/
def preferred_domains : List String :=
  ["investor", "ir.", "annualreport", "q4cdn", "sec.gov"]

/-- Does the URL contain some trusted-domain substring
(`domain in url.lower()` for some `domain` in the allow-list)? -/
def matchesTrusted (url : String) : Bool :=
  preferred_domains.any (fun d => hasSub d.data (url.data.map pyLowerChar))

/-- Model of the `best_url` selection loop of `process_finder_output`:
start from `found_urls[0]`; every candidate containing a trusted
substring overwrites the choice (the `break` leaves only the inner
domain loop), so the last matching candidate wins. -/
def selectBestUrl : List String → Option String
  | [] => none
  | u :: us =>
    some ((u :: us).foldl (fun best url => if matchesTrusted url then url else best) u)

/-- Modelled from the spec: the claimed first-match-wins selection — the
first candidate containing a trusted substring, else the first candidate. -/
def selectFirstTrusted : List String → Option String
  | [] => none
  | u :: us => some (((u :: us).find? matchesTrusted).getD u)

/-! The vector-storage namespace key: `store_in_pinecone` from
`src/annual_report_parser/custom_tools.py` (line 455), also used by
`search_pinecone` (line 570). -/

/-- Characters kept by the regex class `[a-zA-Z0-9_-]` of
`re.sub(r'[^a-zA-Z0-9_-]', '_', ...)`. -/
def nsAllowed (c : Char) : Bool :=
  ('a' ≤ c && c ≤ 'z') || ('A' ≤ c && c ≤ 'Z') || isDigitC c || c = '_' || c = '-'

/-- Python `str.strip('_')`: drop underscores from both ends. -/
def stripUnderscores (cs : List Char) : List Char :=
  ((cs.dropWhile (· = '_')).reverse.dropWhile (· = '_')).reverse

/-- Model of the namespace derivation in `store_in_pinecone`:
`re.sub(r'[^a-zA-Z0-9_-]', '_', company_name.lower()).strip('_')`. -/
def pineconeNamespace (company_name : String) : String :=
  ⟨stripUnderscores ((company_name.data.map pyLowerChar).map
    (fun c => if nsAllowed c then c else '_'))⟩

/-- Modelled from the spec: the claimed namespace derivation — lowercase
the identifier and replace every non-alphanumeric character with `_`
(no stripping, hyphen and underscore also replaced). -/
def claimNamespace (company_name : String) : String :=
  ⟨(company_name.data.map pyLowerChar).map
    (fun c => if ('a' ≤ c && c ≤ 'z') || ('A' ≤ c && c ≤ 'Z') || isDigitC c then c else '_')⟩

/-! The Tracked step: `track_processed_company` from
`src/annual_report_parser/agent.py` (lines 218-231). -/

/-- Model of `track_processed_company`: append the company to the
processed list unless it is empty or already present, and increment the
index by exactly 1.  The item's success/exhaustion outcome is not an
input: the callback runs the same way in either case. -/
def track_processed_company (company_name : String) (processed : List String)
    (current_index : Nat) : List String × Nat :=
  (if company_name ≠ "" ∧ company_name ∉ processed then processed ++ [company_name]
   else processed,
   current_index + 1)

/-! The inner retry loop: `DownloadCheckerAgent._run_async_impl`
(`src/annual_report_parser/agent.py` lines 252-278) inside
`pdf_find_retry_loop` (`LoopAgent`, `max_iterations=5`, lines 547-557). -/

/-- Signal produced by one `DownloadCheckerAgent` pass. -/
inductive CheckerSignal where
  | escalateSuccess
  | escalateFailure
  | continueRetry
  deriving Repr, DecidableEq

/-- Model of one `DownloadCheckerAgent` pass: escalate on success, or on
`attempt >= max_attempts` (5); otherwise increment the attempt counter
and yield a non-escalating retry event. -/
def downloadCheck (download_success : Bool) (attempt : Nat) : CheckerSignal × Nat :=
  if download_success then (.escalateSuccess, attempt)
  else if attempt ≥ 5 then (.escalateFailure, attempt)
  else (.continueRetry, attempt + 1)

/-- How the inner `LoopAgent` terminated. -/
inductive LoopExit where
  | escalated (s : CheckerSignal)
  | maxIterationsReached
  deriving Repr, DecidableEq

/-- Final state of one run of the inner retry loop. -/
structure RetryResult where
  iterationsRun : Nat
  finalAttempt : Nat
  exit : LoopExit
  deriving Repr, DecidableEq

/-- The `LoopAgent` driver: run the sub-pipeline (whose acquisition
outcome on pass `i` is `acquire i`) then the checker; stop on an
escalating event or when the iteration budget is exhausted. -/
def runRetryAux (acquire : Nat → Bool) : Nat → Nat → Nat → RetryResult
  | 0, iterDone, attempt => ⟨iterDone, attempt, .maxIterationsReached⟩
  | remaining + 1, iterDone, attempt =>
    match downloadCheck (acquire iterDone) attempt with
    | (.escalateSuccess, a) => ⟨iterDone + 1, a, .escalated .escalateSuccess⟩
    | (.escalateFailure, a) => ⟨iterDone + 1, a, .escalated .escalateFailure⟩
    | (_, a) => runRetryAux acquire remaining (iterDone + 1) a

/-- Model of `pdf_find_retry_loop`: `max_iterations = 5`, and the
per-company state starts with `pdf_find_attempt = 0` (set by
`CompanyIteratorAgent`). -/
def pdf_find_retry_loop (acquire : Nat → Bool) : RetryResult :=
  runRetryAux acquire 5 0 0

/-! The outer iteration reset: `CompanyIteratorAgent._run_async_impl`
(`src/annual_report_parser/agent.py` lines 287-318) and the unwired
`reset_company_state` tool (`src/annual_report_parser/loop_tools.py`
lines 77-99). -/

/-- The session-state keys involved in per-company processing. -/
inductive SKey where
  | company_name
  | pdf_find_attempt
  | tried_urls
  | pdf_url
  | pdf_url_raw
  | pdf_file_path
  | download_result
  | download_success
  | raw_analysis
  | financial_analysis
  | final_summary
  | structured_output
  deriving Repr, DecidableEq

/-- Session-state values (string, counter, flag, or list). -/
inductive SVal where
  | s (v : String)
  | n (v : Nat)
  | b (v : Bool)
  | l (v : List String)
  deriving Repr, DecidableEq

/-- A session-state fragment over the per-company keys. -/
def SState := SKey → SVal

/-- Model of the `SelectNext` reset performed by `CompanyIteratorAgent`
(lines 302-312): sets `company_name` and resets exactly eight keys;
every other key keeps its previous value. -/
def iteratorReset (st : SState) (name : String) : SState := fun k =>
  match k with
  | .company_name => .s name
  | .pdf_find_attempt => .n 0
  | .tried_urls => .l []
  | .pdf_url => .s ""
  | .pdf_file_path => .s ""
  | .download_success => .b false
  | .raw_analysis => .s ""
  | .financial_analysis => .s ""
  | .final_summary => .s ""
  | _ => st k

/-- Model of the `reset_company_state` tool from `loop_tools.py`: resets
ten keys including `pdf_url_raw`, `download_result` and
`structured_output` — but this tool is wrapped at `agent.py` line 55 and
never placed in any agent's toolset, so it never runs. -/
def reset_company_state (st : SState) : SState := fun k =>
  match k with
  | .pdf_find_attempt => .n 0
  | .tried_urls => .l []
  | .pdf_url => .s ""
  | .pdf_url_raw => .s ""
  | .pdf_file_path => .s ""
  | .download_result => .s ""
  | .raw_analysis => .s ""
  | .financial_analysis => .s ""
  | .final_summary => .s ""
  | .structured_output => .s ""
  | _ => st k

/-! The inbound message handler: `CompanyProfilerA2AServer.handle_message`
from `src/company_profiler/a2a_server.py` (lines 142-163). -/

/-- One entry of `params["message"]["parts"]`: its `kind`, its `text`
payload (default `""`), and its `data` payload (default `{}`) as a JSON
object member list. -/
structure MessagePart where
  kind : String
  text : String
  data : List (List Char × Json)

/-- Does the JSON object have the given key (`"userAction" in data`)? -/
def hasDataKey (members : List (List Char × Json)) (key : String) : Bool :=
  members.any (fun m => m.1 = key.data)

/-- Model of the query-extraction loop: the first `text` part supplies
the query (even when empty); otherwise the first `data` part whose
payload has a `userAction` key supplies `json.dumps(data)`; otherwise
the query stays empty. -/
def extractQuery : List MessagePart → String
  | [] => ""
  | p :: rest =>
    if p.kind = "text" then p.text
    else if p.kind = "data" ∧ hasDataKey p.data "userAction" then dumps (Json.obj p.data)
    else extractQuery rest

/-- Outcome of `handle_message` as far as the claims are concerned:
either the early JSON-RPC error return, or an invocation of the pipeline
agent (everything from session lookup onward happens only in this
branch). -/
inductive HandleOutcome where
  | rpcError (code : Int)
  | pipelineRun (query : String)
  deriving Repr, DecidableEq

/-- Model of `handle_message` after body decoding: extract the query from
the message parts; an empty query is answered with JSON-RPC error
`-32600` before the runner or the session service is ever touched. -/
def handle_message (parts : List MessagePart) : HandleOutcome :=
  let query := extractQuery parts
  if query = "" then .rpcError (-32600) else .pipelineRun query

/-! Spec-modelled comparator for the Message-Envelope Parser claim C4:
the claimed algorithm (fence stripping plus first *balanced* brace
substring), to be compared with the source's greedy-regex behaviour. -/

/-- Find the end (exclusive offset) of the balanced `{...}` span starting
at the head of `cs` (which must start with `{`), counting nested braces. -/
def balancedEnd (cs : List Char) : Option Nat :=
  go cs 0 0
where
  /-- Scan with a running brace depth. -/
  go : List Char → Nat → Nat → Option Nat
    | [], _, _ => none
    | c :: rest, depth, idx =>
      if c = '{' then go rest (depth + 1) (idx + 1)
      else if c = '}' then
        if depth ≤ 1 then some (idx + 1) else go rest (depth - 1) (idx + 1)
      else go rest depth (idx + 1)

/-- Modelled from the spec: "locate the first balanced `{...}` substring
(scanning for the first `{` and its matching closing brace accounting
for nested braces)". -/
def balancedBraceSpan (part : List Char) : Option (List Char) :=
  let pre := part.dropWhile (· ≠ '{')
  match balancedEnd pre with
  | some n => some (pre.take n)
  | none => none

/-- Modelled from the spec: "strip wrapping code fences" on a segment. -/
def stripFences (part : List Char) : List Char :=
  let part := if hasPre "```".data part then
    ((part.drop 3).dropWhile (fun c => c.isAlpha)).dropWhile isPyWs
  else part
  if endsWithL "```".data part then
    ((part.reverse.drop 3).dropWhile isPyWs).reverse
  else part

/-- Modelled from the spec: the Message-Envelope Parser as claim C4
describes it — per non-empty segment, strip fences, take the first
balanced `{...}` substring and strictly parse it, skipping failures. -/
def extract_a2ui_messages_spec (text : String) : List Json :=
  (splitOnL a2uiDelim text.data).foldl
    (fun msgs part =>
      let part := pyTrim part
      if part = [] then msgs
      else
        match balancedBraceSpan (stripFences part) with
        | none => msgs
        | some cand =>
          match loadsL cand with
          | some (Json.obj ms) => msgs ++ [Json.obj ms]
          | _ => msgs)
    []

/-! Notions used by the parser/printer round-trip development for the
Output Normalizer claim. -/

/-- The characters at which `parseVal` can succeed. -/
def isStartChar (h : Char) : Bool :=
  h = '"' || h = '{' || h = '[' || h = 't' || h = 'f' || h = 'n' || h = '-' || isDigitC h

/-- A continuation that cannot extend a just-parsed token: empty, or
starting with a character that neither extends a digit run nor opens a
fraction/exponent. -/
def noExtendL (cs : List Char) : Bool :=
  match cs with
  | [] => true
  | c :: _ => !(isDigitC c || c = '.' || c = 'e' || c = 'E')

/-- Shape of the integer part of a number literal. -/
def IntShape (ip : List Char) : Prop :=
  ip = ['0'] ∨ ∃ c d, ip = c :: d ∧ isDigitC c ∧ c ≠ '0' ∧ (∀ x ∈ d, isDigitC x)

/-- Shape of the (possibly absent) fraction part of a number literal. -/
def FracShape (f : List Char) : Prop :=
  f = [] ∨ ∃ d, f = '.' :: d ∧ d ≠ [] ∧ (∀ x ∈ d, isDigitC x)

/-- Shape of the (possibly absent) exponent part of a number literal. -/
def ExpShape (e : List Char) : Prop :=
  e = [] ∨ ∃ ech s d, e = ech :: s ++ d ∧ (ech = 'e' ∨ ech = 'E') ∧
    (s = [] ∨ s = ['+'] ∨ s = ['-']) ∧ d ≠ [] ∧ (∀ x ∈ d, isDigitC x)

/-- Shape of a complete JSON number literal. -/
def NumShape (lit : List Char) : Prop :=
  ∃ sign ip f e, lit = sign ++ ip ++ f ++ e ∧ (sign = [] ∨ sign = ['-']) ∧
    IntShape ip ∧ FracShape f ∧ ExpShape e

/-- Values in the range of the parser: every number literal has the
grammar's shape (other constructors carry no constraint — any character
list round-trips as a string). -/
inductive WF : Json → Prop where
  | null : WF .null
  | bool (b : Bool) : WF (.bool b)
  | num (lit : List Char) : NumShape lit → WF (.num lit)
  | str (s : List Char) : WF (.str s)
  | arr (l : List Json) : (∀ v ∈ l, WF v) → WF (.arr l)
  | obj (l : List (List Char × Json)) : (∀ m ∈ l, WF m.2) → WF (.obj l)

/-- A session state as left by the first item's processing: the three
item-scoped keys the iterator forgets still hold first-item values. -/
def c5PriorState : SState := fun k =>
  match k with
  | .pdf_url_raw => .s "https://old.example/item1.pdf"
  | .download_result => .s "item1 download result"
  | .structured_output => .s "item1 structured output"
  | _ => .s ""

/-- First trusted-matching candidate in the counterexample list. -/
def c6UrlA : String := "https://www.x.com/investor/a.pdf"

/-- Second trusted-matching candidate in the counterexample list. -/
def c6UrlB : String := "https://www.y.com/investor/b.pdf"

/-- A message whose single part is neither text nor a `userAction` data
part. -/
def c10Parts : List MessagePart := [⟨"file", "attachment.bin", []⟩]

/-- Shard slots of a fan-out run over 15 items where worker 2's task
errored entirely (its slot holds unparseable text) and the other four
workers each returned their 3 assigned entries. -/
def c2Shards : Fin 5 → String :=
  fun i => if i = 2 then "worker failed" else "[1,2,3]"

/-- Shard slots of a fully successful fan-out run. -/
def c2wShards : Fin 5 → String := fun _ => "[1,2,3]"

/-- The three entries each successful worker returns. -/
def c2wList : List Json :=
  [Json.num ['1'], Json.num ['2'], Json.num ['3']]

/-- A blob whose single segment has a balanced object followed by a stray
closing brace. -/
def c4CounterBlob : String := "---a2ui_JSON---\x7b\"k\":1\x7d x\x7d"

/-- The decoded message `{"k": 1}`. -/
def c4Msg : Json := Json.obj [(['k'], Json.num ['1'])]

/-- The spec's scenario blob, with the parser's fixed delimiter in place
of the generic `---SEP---`. -/
def c4ScenarioBlob : String :=
  "---a2ui_JSON---\x7bbad json---a2ui_JSON---\x7b\"k\":1\x7d---a2ui_JSON---"

/-- Decoding of one raw (unstripped) part: strip it, skip it when empty,
otherwise decode the stripped segment. -/
def decodePart (part : List Char) : Option Json :=
  if pyTrim part = [] then none else decodeSegment (pyTrim part)

def MasterValP (f : Nat) : Prop :=
  ∀ cs v rest, parseVal f cs = some (v, rest) →
    WF v ∧ ∃ pre, cs = pre ++ rest ∧ pre ≠ [] ∧
      (∀ h, pre.head? = some h → isStartChar h = true) ∧
      (∀ h, pre.getLast? = some h → isPyWs h = false) ∧
      (∀ f' rest', pre.length < f' → noExtendL rest' = true →
        parseVal f' (pre ++ rest') = some (v, rest'))

def MasterMembersP (f : Nat) : Prop :=
  ∀ cs ms rest, parseMembers f cs = some (ms, rest) →
    (∀ m ∈ ms, WF m.2) ∧ ∃ pre, cs = pre ++ rest ∧
      pre.head? = some '"' ∧ pre.getLast? = some '}' ∧
      (∀ f' rest', pre.length < f' → parseMembers f' (pre ++ rest') = some (ms, rest'))

def MasterElemsP (f : Nat) : Prop :=
  ∀ cs l rest, parseElems f cs = some (l, rest) →
    (∀ x ∈ l, WF x) ∧ ∃ pre, cs = pre ++ rest ∧ pre ≠ [] ∧
      (∀ h, pre.head? = some h → isStartChar h = true) ∧
      pre.getLast? = some ']' ∧
      (∀ f' rest', pre.length < f' → parseElems f' (pre ++ rest') = some (l, rest'))

def RTValP (f : Nat) : Prop :=
  ∀ v rest', WF v → (printVal v).length < f → noExtendL rest' = true →
    parseVal f (printVal v ++ rest') = some (v, rest')

def RTElemsP (f : Nat) : Prop :=
  ∀ v vs rest', WF v → (∀ x ∈ vs, WF x) →
    (printVal v ++ printElemsTail vs).length + 1 < f →
    parseElems f ((printVal v ++ printElemsTail vs) ++ (']' :: rest')) = some (v :: vs, rest')

def RTMembersP (f : Nat) : Prop :=
  ∀ k v ms rest', WF v → (∀ m ∈ ms, WF m.2) →
    (printStr k ++ ':' :: printVal v ++ printMembersTail ms).length + 1 < f →
    parseMembers f ((printStr k ++ ':' :: printVal v ++ printMembersTail ms) ++ ('\x7d' :: rest'))
      = some ((k, v) :: ms, rest')

/-! Helper lemmas. -/

/-- A fold that overwrites its accumulator with every element satisfying
`p` returns the last such element, i.e. the first match of the reversed
list, defaulting to the seed. -/
theorem foldl_overwrite (p : α → Bool) (l : List α) (b : α) :
    l.foldl (fun acc x => if p x then x else acc) b = (l.reverse.find? p).getD b := by
  induction l generalizing b with
  | nil => rfl
  | cons x xs ih =>
    rw [List.foldl_cons, ih, List.reverse_cons, List.find?_append]
    cases hx : xs.reverse.find? p with
    | some y => rfl
    | none =>
      by_cases hpx : p x
      · simp [List.find?, hpx]
      · simp [List.find?, hpx]

/-- The head of a `dropWhile` result never satisfies the dropped
predicate. -/
theorem head?_dropWhile (p : α → Bool) (l : List α) (a : α)
    (h : (l.dropWhile p).head? = some a) : p a = false := by
  induction l with
  | nil => simp [List.dropWhile] at h
  | cons x xs ih =>
    rw [List.dropWhile_cons] at h
    by_cases hx : p x
    · rw [if_pos hx] at h
      exact ih h
    · rw [if_neg hx] at h
      simp only [List.head?_cons, Option.some.injEq] at h
      subst h
      exact Bool.eq_false_iff.mpr hx

/-- `dropWhile` yields a suffix: it equals `drop` at the length of the
dropped prefix. -/
theorem dropWhile_eq_drop (p : α → Bool) (l : List α) :
    ∃ k, l.dropWhile p = l.drop k := by
  induction l with
  | nil => exact ⟨0, rfl⟩
  | cons x xs ih =>
    by_cases hx : p x
    · obtain ⟨k, hk⟩ := ih
      exact ⟨k + 1, by simpa [List.dropWhile_cons, hx] using hk⟩
    · exact ⟨0, by simp [List.dropWhile_cons, hx]⟩

/-- A nonempty `take` has the same head as the original list. -/
theorem head?_take_of_some (l : List α) (j : Nat) (a : α)
    (h : (l.take j).head? = some a) : l.head? = some a := by
  cases l with
  | nil => simp at h
  | cons x xs =>
    cases j with
    | zero => simp at h
    | succ n => simpa using h

/-! Claim C1. -/

/-- Claim C1 (code bug witness): with `maxAttempts = 5` and an
acquisition that fails on every pass, `pdf_find_retry_loop` runs exactly
5 attempts — but it terminates through the `LoopAgent` iteration cap
with the checker having just emitted a non-escalating retry event; the
`DownloadCheckerAgent` comparison `attempt >= max_attempts` sees the
counter at most at 4, so the Exhausted escalate-exit the claim requires
never fires. -/
theorem c1_retry_loop_exhaustion_eval :
    pdf_find_retry_loop (fun _ => false) =
      ⟨5, 5, LoopExit.maxIterationsReached⟩ ∧
    (pdf_find_retry_loop (fun _ => false)).exit ≠
      LoopExit.escalated CheckerSignal.escalateFailure := by
  exact ⟨rfl, by decide⟩

/-! Claim C5. -/

/-- Claim C5 (code bug witness): after the `SelectNext` reset that
`CompanyIteratorAgent` performs at the start of the second item, the
item-scoped keys `pdf_url_raw`, `download_result` and
`structured_output` still hold the first item's values (while e.g. the
attempt counter is reset); the `reset_company_state` tool would clear
them, but it is never wired into any agent. -/
theorem c5_reset_leaks_item_scoped_keys :
    iteratorReset c5PriorState "Company B" SKey.pdf_url_raw
      = SVal.s "https://old.example/item1.pdf" ∧
    iteratorReset c5PriorState "Company B" SKey.download_result
      = SVal.s "item1 download result" ∧
    iteratorReset c5PriorState "Company B" SKey.structured_output
      = SVal.s "item1 structured output" ∧
    iteratorReset c5PriorState "Company B" SKey.pdf_find_attempt = SVal.n 0 ∧
    reset_company_state c5PriorState SKey.pdf_url_raw = SVal.s "" ∧
    reset_company_state c5PriorState SKey.download_result = SVal.s "" ∧
    reset_company_state c5PriorState SKey.structured_output = SVal.s "" := by
  exact ⟨rfl, rfl, rfl, rfl, rfl, rfl, rfl⟩

/-! Claim C6. -/

/-- Claim C6 counterexample: with two candidates both containing the
trusted substring `investor`, the source's selection loop returns the
second (last) one, while the claimed first-match-wins policy returns the
first; the claim fails on this input. -/
theorem c6_first_match_counterexample :
    selectBestUrl [c6UrlA, c6UrlB] = some c6UrlB ∧
    selectFirstTrusted [c6UrlA, c6UrlB] = some c6UrlA ∧
    c6UrlA ≠ c6UrlB := by
  refine ⟨by decide, by decide, by decide⟩

/-- Claim C6 (amended): among the found candidates the selection prefers
ones containing a trusted-domain substring, but within that preference
tier the LAST matching candidate in candidate order wins (each match
overwrites the previous choice); with no match the first candidate is
kept. -/
theorem c6_last_match_amended (u : String) (us : List String) :
    selectBestUrl (u :: us) = some (((u :: us).reverse.find? matchesTrusted).getD u) := by
  have h : selectBestUrl (u :: us) =
      some ((u :: us).foldl (fun best url => if matchesTrusted url then url else best) u) := rfl
  rw [h, foldl_overwrite]

/-! Claim C7. -/

/-- Claim C7: re-adding an already-processed company leaves the
processed list unchanged, and `current_company_index` is incremented by
exactly 1; the outcome of the item's processing is not even an input of
the callback, so this holds for success and exhaustion alike. -/
theorem c7_track_idempotent_increment (name : String) (processed : List String)
    (idx : Nat) (h : name ∈ processed) :
    track_processed_company name processed idx = (processed, idx + 1) := by
  unfold track_processed_company
  rw [if_neg]
  intro hc
  exact hc.2 h

/-- Claim C7 witness: concrete instance of the idempotent no-op. -/
theorem c7_track_idempotent_increment_witness :
    ("Apple Inc." ∈ ["Apple Inc."]) ∧
    track_processed_company "Apple Inc." ["Apple Inc."] 3 = (["Apple Inc."], 4) :=
  ⟨by decide, c7_track_idempotent_increment "Apple Inc." ["Apple Inc."] 3 (by decide)⟩

/-! Claim C9. -/

/-- Claim C9 counterexample: for the identifier `"A-B."` the source keeps
the hyphen (the regex class also keeps `-` and `_`) and strips the
trailing underscore produced from `.`, giving `"a-b"`, while the claimed
"replace every non-alphanumeric character with `_`" derivation gives
`"a_b_"`; the claim fails on this input. -/
theorem c9_namespace_counterexample :
    pineconeNamespace "A-B." = "a-b" ∧
    claimNamespace "A-B." = "a_b_" ∧
    ("a-b" : String) ≠ "a_b_" := by
  refine ⟨by decide, by decide, by decide⟩

/-- Claim C9 (amended): the namespace is the identifier lowercased with
every character outside `[a-zA-Z0-9_-]` replaced by `_` and leading and
trailing underscores then stripped; it is a function of the identifier
alone, consists only of characters from that class, and never starts or
ends with `_`. -/
theorem c9_namespace_amended (nm : String) :
    (∀ c ∈ (pineconeNamespace nm).data, nsAllowed c) ∧
    (pineconeNamespace nm).data.head? ≠ some '_' ∧
    (pineconeNamespace nm).data.getLast? ≠ some '_' := by
  unfold pineconeNamespace
  set l := (nm.data.map pyLowerChar).map (fun c => if nsAllowed c then c else '_') with hl
  have hall : ∀ c ∈ l, nsAllowed c := by
    intro c hc
    rw [hl] at hc
    simp only [List.mem_map] at hc
    obtain ⟨x, _, rfl⟩ := hc
    by_cases hx : nsAllowed x
    · simp [hx]
    · simp [hx]
      decide
  set m := l.dropWhile (· = '_') with hm
  constructor
  · intro c hc
    apply hall
    unfold stripUnderscores at hc
    rw [List.mem_reverse] at hc
    have hc₂ := (List.dropWhile_sublist (l := m.reverse) (p := (· = '_'))).mem hc
    rw [List.mem_reverse] at hc₂
    exact (List.dropWhile_sublist (l := l) (p := (· = '_'))).mem hc₂
  constructor
  · intro hhd
    unfold stripUnderscores at hhd
    rw [← hm] at hhd
    obtain ⟨k, hk⟩ := dropWhile_eq_drop (· = '_') m.reverse
    rw [hk, List.drop_reverse, List.reverse_reverse] at hhd
    have hmhd : m.head? = some '_' := head?_take_of_some _ _ _ hhd
    have := head?_dropWhile (· = '_') l '_' (hm ▸ hmhd)
    simp at this
  · intro hlast
    unfold stripUnderscores at hlast
    rw [← hm, List.getLast?_reverse] at hlast
    have := head?_dropWhile (· = '_') m.reverse '_' hlast
    simp at this

/-! Claim C10. -/

/-- When no part supplies a query, the extraction loop returns the empty
string. -/
theorem extractQuery_eq_empty (ps : List MessagePart)
    (h : ∀ p ∈ ps, p.kind ≠ "text" ∧ ¬(p.kind = "data" ∧ hasDataKey p.data "userAction")) :
    extractQuery ps = "" := by
  induction ps with
  | nil => rfl
  | cons p rest ih =>
    have hp := h p (List.mem_cons_self p rest)
    show (if p.kind = "text" then p.text
      else if p.kind = "data" ∧ hasDataKey p.data "userAction" then dumps (Json.obj p.data)
      else extractQuery rest) = ""
    rw [if_neg hp.1, if_neg hp.2]
    exact ih (fun q hq => h q (List.mem_cons_of_mem _ hq))

/-- Claim C10: when the inbound message's parts contain neither a part of
kind `text` nor a `data` part whose payload has a `userAction` key, the
handler answers with JSON-RPC error `-32600`, returning before the
runner or the session service is touched (so the pipeline agent is never
invoked and session state is unchanged). -/
theorem c10_no_content_rpc_error (parts : List MessagePart)
    (h : ∀ p ∈ parts, p.kind ≠ "text" ∧ ¬(p.kind = "data" ∧ hasDataKey p.data "userAction")) :
    handle_message parts = HandleOutcome.rpcError (-32600) := by
  unfold handle_message
  rw [extractQuery_eq_empty parts h]
  rfl

/-- Claim C10 witness: concrete early-error instance. -/
theorem c10_no_content_rpc_error_witness :
    (∀ p ∈ c10Parts, p.kind ≠ "text" ∧ ¬(p.kind = "data" ∧ hasDataKey p.data "userAction")) ∧
    handle_message c10Parts = HandleOutcome.rpcError (-32600) :=
  ⟨by decide, c10_no_content_rpc_error c10Parts (by decide)⟩

/-! Claim C2. -/

/-- Claim C2 counterexample: with worker 2 errored, the fan-in merge
`combine_company_data` produces 12 entries — the failed shard
contributes nothing, no placeholder entries are inserted, and the total
is not 15 as the claim requires. -/
theorem c2_merge_counterexample :
    (combine_company_data c2Shards).length = 12 ∧
    (combine_company_data c2Shards).length ≠ 15 := by
  refine ⟨by decide, by decide⟩

/-- Claim C2 (amended): the fan-in merge is a pure function of the five
shard slots (hence independent of worker completion order) equal to the
concatenation, in shard-index order, of the slots that parse as JSON
lists; when every worker's slot parses to its 3 assigned entries the
merged list has length exactly 15 and position `i` is drawn from shard
`i / 3`, while a shard that fails to parse contributes nothing (so an
errored worker shortens the result instead of leaving placeholders). -/
theorem c2_merge_amended (shards : Fin 5 → String) (ls : Fin 5 → List Json)
    (h : ∀ i, loads (shards i) = some (Json.arr (ls i))) :
    combine_company_data shards = ls 0 ++ (ls 1 ++ (ls 2 ++ (ls 3 ++ ls 4))) ∧
    ((∀ i, (ls i).length = 3) → (combine_company_data shards).length = 15) := by
  have e : List.finRange 5 = [0, 1, 2, 3, 4] := by decide
  have hc : combine_company_data shards = ls 0 ++ (ls 1 ++ (ls 2 ++ (ls 3 ++ ls 4))) := by
    unfold combine_company_data
    rw [e]
    simp only [List.foldl_cons, List.foldl_nil, h 0, h 1, h 2, h 3, h 4]
    simp [List.append_assoc]
  refine ⟨hc, fun h3 => ?_⟩
  rw [hc]
  simp [List.length_append, h3 0, h3 1, h3 2, h3 3, h3 4]

/-- Claim C2 amended witness: concrete all-success merge of length 15. -/
theorem c2_merge_amended_witness :
    (∀ i, loads (c2wShards i) = some (Json.arr c2wList)) ∧
    combine_company_data c2wShards =
      c2wList ++ (c2wList ++ (c2wList ++ (c2wList ++ c2wList))) ∧
    (combine_company_data c2wShards).length = 15 := by
  have h : ∀ i : Fin 5, loads (c2wShards i) = some (Json.arr c2wList) := fun i => rfl
  have main := c2_merge_amended c2wShards (fun _ => c2wList) h
  exact ⟨h, main.1, main.2 (fun i => rfl)⟩

/-! Claim C4. -/

/-- Claim C4 counterexample: on the segment `{"k":1} x}` the source's
greedy regex takes the span from the first `{` to the LAST `}` (which
fails to parse, so the segment is skipped and the result is empty),
while the claimed first-balanced-substring algorithm would decode
`{"k":1}`; the claim also asserts fence stripping that this
implementation does not perform.  The claim fails on this input. -/
theorem c4_balanced_counterexample :
    extract_a2ui_messages c4CounterBlob = [] ∧
    extract_a2ui_messages_spec c4CounterBlob = [c4Msg] ∧
    ([] : List Json) ≠ [c4Msg] := by
  refine ⟨rfl, rfl, by simp⟩

/-- Claim C4 (amended): for each non-empty segment the parser takes the
substring from the first `{` to the last `}` (greedy, no fence
stripping, no nesting-aware matching) and strictly parses it; the
scenario blob still yields exactly the one decoded message `{"k":1}`.
The second conjunct exhibits the greedy span on a segment with a stray
trailing brace. -/
theorem c4_amended_greedy_scenario :
    extract_a2ui_messages c4ScenarioBlob = [c4Msg] ∧
    greedyBraceSpan "x \x7b\"k\":1\x7d y\x7d".data = some "\x7b\"k\":1\x7d y\x7d".data := by
  refine ⟨rfl, rfl⟩

/-! Claim C3. -/

/-- The extraction fold accumulates exactly the per-part decodes, in
order. -/
theorem extract_foldl_eq (l : List (List Char)) (acc : List Json) :
    l.foldl (fun msgs part =>
      let part := pyTrim part
      if part = [] then msgs
      else
        match decodeSegment part with
        | some m => msgs ++ [m]
        | none => msgs) acc = acc ++ l.filterMap decodePart := by
  induction l generalizing acc with
  | nil => simp
  | cons p ps ih =>
    rw [List.foldl_cons, List.filterMap_cons]
    by_cases hp : pyTrim p = []
    · rw [ih]
      simp [decodePart, hp]
    · cases hd : decodeSegment (pyTrim p) with
      | some m =>
        rw [ih]
        simp [decodePart, hp, hd, List.append_assoc]
      | none =>
        rw [ih]
        simp [decodePart, hp, hd]

/-- Decoding the stripped non-empty segments equals per-part decoding of
the raw parts. -/
theorem filterMap_strip_filter (l : List (List Char)) :
    (((l.map pyTrim).filter (fun s => !s.isEmpty)).filterMap decodeSegment)
      = l.filterMap decodePart := by
  induction l with
  | nil => rfl
  | cons p ps ih =>
    rw [List.map_cons, List.filter_cons, List.filterMap_cons]
    by_cases hp : pyTrim p = []
    · have h2 : decodePart p = none := by simp [decodePart, hp]
      rw [h2]
      simp [hp, ih]
    · have h2 : decodePart p = decodeSegment (pyTrim p) := by simp [decodePart, hp]
      rw [h2]
      have h1 : ((pyTrim p).isEmpty : Bool) = false := by
        cases hc : pyTrim p with
        | nil => exact absurd hc hp
        | cons a as => rfl
      rw [h1]
      simp only [Bool.not_false, if_true, List.filterMap_cons]
      cases hd : decodeSegment (pyTrim p) <;> simp [hd, ih]

/-- The length of a `filterMap` counts the inputs with a defined image. -/
theorem length_filterMap_eq_countP (f : α → Option β) (l : List α) :
    (l.filterMap f).length = l.countP (fun a => (f a).isSome) := by
  induction l with
  | nil => rfl
  | cons x xs ih =>
    cases hx : f x with
    | some y => simp [List.filterMap_cons, hx, List.countP_cons, ih]
    | none => simp [List.filterMap_cons, hx, List.countP_cons, ih]

/-- Claim C3: the Message-Envelope Parser returns exactly the in-order,
independently decoded segments — its output is the `filterMap` of the
per-segment decoder over the non-empty stripped segments (so one
malformed segment is skipped without touching its siblings and output
order matches segment order), its length is exactly the number of
segments that decode successfully, and that never exceeds the number of
non-empty segments. -/
theorem c3_envelope_parser_bounds (text : String) :
    extract_a2ui_messages text = (nonEmptySegments text).filterMap decodeSegment ∧
    (extract_a2ui_messages text).length =
      (nonEmptySegments text).countP (fun s => (decodeSegment s).isSome) ∧
    (extract_a2ui_messages text).length ≤ (nonEmptySegments text).length := by
  have h1 : extract_a2ui_messages text = (nonEmptySegments text).filterMap decodeSegment := by
    unfold extract_a2ui_messages nonEmptySegments
    rw [extract_foldl_eq, filterMap_strip_filter]
    simp
  have h2 : (extract_a2ui_messages text).length =
      (nonEmptySegments text).countP (fun s => (decodeSegment s).isSome) := by
    rw [h1, length_filterMap_eq_countP]
  refine ⟨h1, h2, ?_⟩
  rw [h2]
  exact List.countP_le_length _

/-! Round-trip development, part 1: token-level lemmas. -/

/-- Skipping whitespace jumps over an all-whitespace prefix and stops at
a non-whitespace head. -/
theorem skipWs_append (a X : List Char) (ha : ∀ c ∈ a, isJsonWs c)
    (hX : ∀ h, X.head? = some h → ¬(isJsonWs h)) : skipWs (a ++ X) = X := by
  induction a with
  | nil =>
    cases X with
    | nil => rfl
    | cons x xs =>
      show List.dropWhile isJsonWs (x :: xs) = x :: xs
      rw [List.dropWhile_cons, if_neg]
      simpa using hX x rfl
  | cons c cs ih =>
    show List.dropWhile isJsonWs (c :: (cs ++ X)) = X
    rw [List.dropWhile_cons, if_pos (by simpa using ha c (by simp))]
    exact ih (fun d hd => ha d (by simp [hd]))

/-- A pattern is a prefix of itself followed by anything. -/
theorem hasPre_append (pat r : List Char) : hasPre pat (pat ++ r) = true := by
  induction pat with
  | nil => rfl
  | cons p ps ih => simpa [hasPre] using ih

/-- A successful prefix test decomposes the input. -/
theorem hasPre_decomp (pat : List Char) : ∀ cs, hasPre pat cs = true →
    cs = pat ++ cs.drop pat.length := by
  induction pat with
  | nil => intro cs _; simp
  | cons p ps ih =>
    intro cs h
    cases cs with
    | nil => exact absurd h (by simp [hasPre])
    | cons c cs' =>
      rw [hasPre, Bool.and_eq_true] at h
      obtain ⟨h1, h2⟩ := h
      have h1' : p = c := by simpa using h1
      subst h1'
      simpa using ih cs' h2

/-- A digit run splits off exactly at the first non-digit. -/
theorem digitsSpan_eq (cs : List Char) :
    cs = (digitsSpan cs).1 ++ (digitsSpan cs).2 ∧
    (∀ x ∈ (digitsSpan cs).1, isDigitC x) ∧
    (∀ h, (digitsSpan cs).2.head? = some h → ¬(isDigitC h)) := by
  refine ⟨(List.takeWhile_append_dropWhile isDigitC cs).symm, ?_, ?_⟩
  · intro x hx
    exact List.mem_takeWhile_imp hx
  · intro h hh
    have := head?_dropWhile isDigitC cs h hh
    simp [this]

/-- Replaying a digit run on a different continuation. -/
theorem digitsSpan_replay (t r : List Char) (ht : ∀ x ∈ t, isDigitC x)
    (hr : ∀ h, r.head? = some h → ¬(isDigitC h)) : digitsSpan (t ++ r) = (t, r) := by
  unfold digitsSpan
  induction t with
  | nil =>
    cases r with
    | nil => rfl
    | cons x xs =>
      have : isDigitC x = false := by simpa using hr x rfl
      simp [List.takeWhile_cons, List.dropWhile_cons, this]
  | cons c cs ih =>
    have hc : isDigitC c := ht c (by simp)
    have := ih (fun x hx => ht x (by simp [hx]))
    simp only [Prod.mk.injEq] at this
    simp [List.takeWhile_cons, List.dropWhile_cons, hc, this.1, this.2]

/-- Analysis of a successful integer-part parse. -/
theorem parseIntPart_eq (cs ip rest : List Char)
    (h : parseIntPart cs = some (ip, rest)) :
    cs = ip ++ rest ∧ IntShape ip := by
  cases cs with
  | nil => exact absurd h (by simp [parseIntPart])
  | cons c cs' =>
    simp only [parseIntPart] at h
    by_cases hc : c = '0'
    · rw [if_pos hc] at h
      simp only [Option.some.injEq, Prod.mk.injEq] at h
      obtain ⟨h1, h2⟩ := h
      subst hc
      subst h1
      subst h2
      exact ⟨rfl, Or.inl rfl⟩
    · rw [if_neg hc] at h
      by_cases hd : isDigitC c
      · rw [if_pos hd] at h
        simp only [Option.some.injEq, Prod.mk.injEq] at h
        obtain ⟨h1, h2⟩ := h
        subst h1
        subst h2
        obtain ⟨he, hall, _⟩ := digitsSpan_eq cs'
        constructor
        · simpa using he
        · exact Or.inr ⟨c, _, rfl, hd, hc, hall⟩
      · rw [if_neg hd] at h
        exact absurd h (by simp)

/-- Replay of an integer part on a continuation that is not a digit. -/
theorem parseIntPart_replay (ip rest : List Char) (hs : IntShape ip)
    (hr : ∀ h, rest.head? = some h → ¬(isDigitC h)) :
    parseIntPart (ip ++ rest) = some (ip, rest) := by
  cases hs with
  | inl h0 =>
    subst h0
    simp [parseIntPart]
  | inr h =>
    obtain ⟨c, d, he, hd, hc0, hall⟩ := h
    subst he
    have hspan := digitsSpan_replay d rest hall hr
    simp only [List.cons_append, parseIntPart]
    rw [if_neg hc0, if_pos hd, hspan]

/-- Characters with different digit status differ. -/
theorem isDigitC_ne_of (c x : Char) (h : isDigitC c = true) (hx : isDigitC x = false) :
    c ≠ x := by
  intro he
  rw [he, hx] at h
  exact absurd h (by simp)

/-- A head constrained by `noExtendL` cannot continue a number token. -/
theorem noExtendL_head (X : List Char) (h : noExtendL X = true) :
    ∀ c, X.head? = some c →
      isDigitC c = false ∧ c ≠ '.' ∧ c ≠ 'e' ∧ c ≠ 'E' := by
  intro c hc
  cases X with
  | nil => simp at hc
  | cons x xs =>
    simp only [List.head?_cons, Option.some.injEq] at hc
    subst hc
    simp only [noExtendL, Bool.not_eq_true', Bool.or_eq_false_iff] at h
    obtain ⟨⟨⟨h1, h2⟩, h3⟩, h4⟩ := h
    exact ⟨h1, by simpa using h2, by simpa using h3, by simpa using h4⟩

/-- Analysis of the fraction span: decomposition plus grammar shape. -/
theorem fracSpan_eq (cs : List Char) :
    cs = (fracSpan cs).1 ++ (fracSpan cs).2 ∧ FracShape (fracSpan cs).1 := by
  cases cs with
  | nil => exact ⟨rfl, Or.inl rfl⟩
  | cons c rest =>
    simp only [fracSpan]
    by_cases hc : c = '.'
    · rw [if_pos hc]
      by_cases hd : (digitsSpan rest).1 = []
      · rw [if_pos hd]
        exact ⟨rfl, Or.inl rfl⟩
      · rw [if_neg hd]
        obtain ⟨he, hall, _⟩ := digitsSpan_eq rest
        subst hc
        exact ⟨by simpa using he, Or.inr ⟨_, rfl, hd, hall⟩⟩
    · rw [if_neg hc]
      exact ⟨rfl, Or.inl rfl⟩

/-- The fraction span consumes nothing when the head is not a dot. -/
theorem fracSpan_skip (X : List Char) (hX : ∀ c, X.head? = some c → c ≠ '.') :
    fracSpan X = ([], X) := by
  cases X with
  | nil => rfl
  | cons c rest =>
    simp only [fracSpan]
    rw [if_neg (hX c rfl)]

/-- Replaying a fraction span on a different continuation. -/
theorem fracSpan_replay (d X : List Char) (hd : d ≠ []) (hall : ∀ x ∈ d, isDigitC x)
    (hX : ∀ c, X.head? = some c → isDigitC c = false) :
    fracSpan ('.' :: d ++ X) = ('.' :: d, X) := by
  have hspan := digitsSpan_replay d X hall (fun h hh => by simp [hX h hh])
  simp only [List.cons_append, fracSpan]
  rw [hspan]
  simp [hd]

/-- Analysis of the exponent span: decomposition plus grammar shape. -/
theorem expSpan_eq (cs : List Char) :
    cs = (expSpan cs).1 ++ (expSpan cs).2 ∧ ExpShape (expSpan cs).1 := by
  match cs with
  | [] => exact ⟨rfl, Or.inl rfl⟩
  | [e] => exact ⟨rfl, Or.inl rfl⟩
  | e :: s :: rest =>
    simp only [expSpan]
    by_cases h1 : (e = 'e' || e = 'E') && (s = '+' || s = '-')
    · rw [if_pos h1]
      by_cases hd : (digitsSpan rest).1 = []
      · rw [if_pos hd]
        exact ⟨rfl, Or.inl rfl⟩
      · rw [if_neg hd]
        obtain ⟨he, hall, _⟩ := digitsSpan_eq rest
        rw [Bool.and_eq_true] at h1
        refine ⟨by simpa using he, Or.inr ⟨e, [s], _, by simp, ?_, ?_, hd, hall⟩⟩
        · simpa using h1.1
        · rcases (by simpa using h1.2 : s = '+' ∨ s = '-') with h | h <;> simp [h]
    · rw [if_neg h1]
      by_cases h2 : e = 'e' || e = 'E'
      · rw [if_pos h2]
        by_cases hd : (digitsSpan (s :: rest)).1 = []
        · rw [if_pos hd]
          exact ⟨rfl, Or.inl rfl⟩
        · rw [if_neg hd]
          obtain ⟨he, hall, _⟩ := digitsSpan_eq (s :: rest)
          refine ⟨by simpa using he, Or.inr ⟨e, [], _, by simp, by simpa using h2, by simp, hd, hall⟩⟩
      · rw [if_neg h2]
        exact ⟨rfl, Or.inl rfl⟩

/-- The exponent span consumes nothing when the head is not `e`/`E`. -/
theorem expSpan_skip (X : List Char) (hX : ∀ c, X.head? = some c → c ≠ 'e' ∧ c ≠ 'E') :
    expSpan X = ([], X) := by
  match X with
  | [] => rfl
  | [e] => rfl
  | e :: s :: rest =>
    obtain ⟨he1, he2⟩ := hX e rfl
    simp only [expSpan]
    rw [if_neg (by simp [he1, he2]), if_neg (by simp [he1, he2])]

/-- Replaying an exponent span on a different continuation. -/
theorem expSpan_replay (ech : Char) (s d X : List Char)
    (hech : ech = 'e' ∨ ech = 'E') (hs : s = [] ∨ s = ['+'] ∨ s = ['-'])
    (hd : d ≠ []) (hall : ∀ x ∈ d, isDigitC x)
    (hX : ∀ c, X.head? = some c → isDigitC c = false) :
    expSpan ((ech :: s ++ d) ++ X) = (ech :: s ++ d, X) := by
  have hspan := digitsSpan_replay d X hall (fun h hh => by simp [hX h hh])
  rcases hs with h | h | h
  · subst h
    cases d with
    | nil => exact absurd rfl hd
    | cons d0 d' =>
      have hd0 : isDigitC d0 := hall d0 (by simp)
      have hne1 : d0 ≠ '+' := isDigitC_ne_of d0 '+' hd0 (by decide)
      have hne2 : d0 ≠ '-' := isDigitC_ne_of d0 '-' hd0 (by decide)
      simp only [List.nil_append, List.cons_append, expSpan]
      rw [if_neg (by simp [hne1, hne2]), if_pos (by rcases hech with h | h <;> simp [h])]
      have : digitsSpan (d0 :: (d' ++ X)) = (d0 :: d', X) := by
        simpa using hspan
      rw [this]
      simp [hd]
  · subst h
    simp only [List.cons_append, List.singleton_append, List.nil_append, expSpan]
    rw [if_pos (by rcases hech with h | h <;> simp [h]), hspan]
    simp [hd]
  · subst h
    simp only [List.cons_append, List.singleton_append, List.nil_append, expSpan]
    rw [if_pos (by rcases hech with h | h <;> simp [h]), hspan]
    simp [hd]

/-- The last element of an all-digit list is a digit. -/
theorem getLast?_all_digit (l : List Char) (hall : ∀ x ∈ l, isDigitC x) :
    ∀ c, l.getLast? = some c → isDigitC c :=
  fun c hc => hall c (List.mem_of_getLast?_eq_some hc)

/-- Every character of a shaped integer part is a digit. -/
theorem intShape_all (ip : List Char) (h : IntShape ip) : ∀ x ∈ ip, isDigitC x := by
  rcases h with h | ⟨c, d, rfl, hc, _, hall⟩
  · subst h
    intro x hx
    simp only [List.mem_singleton] at hx
    subst hx
    decide
  · intro x hx
    rcases List.mem_cons.mp hx with rfl | hx
    · exact hc
    · exact hall x hx

/-- A shaped integer part is nonempty. -/
theorem intShape_ne (ip : List Char) (h : IntShape ip) : ip ≠ [] := by
  rcases h with h | ⟨c, d, rfl, _, _, _⟩
  · subst h
    simp
  · simp

/-- A nonempty list has a last element. -/
theorem getLast?_some_of_ne (l : List Char) (h : l ≠ []) : ∃ y, l.getLast? = some y := by
  cases hgl : l.getLast? with
  | none => exact absurd (List.getLast?_eq_none_iff.mp hgl) h
  | some y => exact ⟨y, rfl⟩

/-- Head, last and nonemptiness facts about a shaped number literal. -/
theorem numShape_facts (lit : List Char) (h : NumShape lit) :
    lit ≠ [] ∧ (∀ c, lit.head? = some c → c = '-' ∨ isDigitC c) ∧
    (∀ c, lit.getLast? = some c → isDigitC c) := by
  obtain ⟨sign, ip, f, e, rfl, hsign, hip, hf, he⟩ := h
  have hipne := intShape_ne ip hip
  have hipall := intShape_all ip hip
  refine ⟨?_, ?_, ?_⟩
  · rcases hsign with h | h <;> subst h <;> simp [hipne]
  · intro c hc
    rcases hsign with h | h
    · subst h
      cases ip with
      | nil => exact absurd rfl hipne
      | cons a ip' =>
        simp only [List.nil_append, List.cons_append, List.head?_cons,
          Option.some.injEq] at hc
        subst hc
        exact Or.inr (hipall a (by simp))
    · subst h
      simp only [List.cons_append, List.head?_cons, Option.some.injEq] at hc
      exact Or.inl hc.symm
  · intro c hc
    rcases he with h | ⟨ech, s, d, hes, _, _, hd, hall⟩
    · subst h
      rcases hf with h | ⟨d, hfs, hd, hall⟩
      · subst h
        obtain ⟨y, hy⟩ := getLast?_some_of_ne ip hipne
        rw [List.append_nil, List.append_nil, List.getLast?_append, hy,
          Option.or_some] at hc
        have hcy := Option.some.inj hc
        subst hcy
        exact getLast?_all_digit ip hipall y hy
      · subst hfs
        obtain ⟨y, hy⟩ := getLast?_some_of_ne d hd
        have hfl : ('.' :: d).getLast? = some y := by
          rw [show ('.' :: d) = ['.'] ++ d from rfl, List.getLast?_append, hy,
            Option.or_some]
        rw [List.append_nil, List.getLast?_append, hfl, Option.or_some] at hc
        have hcy := Option.some.inj hc
        subst hcy
        exact getLast?_all_digit d hall y hy
    · subst hes
      obtain ⟨y, hy⟩ := getLast?_some_of_ne d hd
      have hel : ((ech :: s) ++ d).getLast? = some y := by
        rw [List.getLast?_append, hy, Option.or_some]
      rw [List.getLast?_append, hel, Option.or_some] at hc
      have hcy := Option.some.inj hc
      subst hcy
      exact getLast?_all_digit d hall y hy

/-- Analysis of a successful number parse: the value carries exactly the
consumed literal and that literal has the grammar's shape. -/
theorem parseNumber_eq (cs : List Char) (j : Json) (rest : List Char)
    (h : parseNumber cs = some (j, rest)) :
    ∃ lit, j = Json.num lit ∧ cs = lit ++ rest ∧ NumShape lit := by
  cases cs with
  | nil => simp [parseNumber] at h
  | cons c cs₁ =>
    simp only [parseNumber] at h
    by_cases hc : c = '-'
    · rw [if_pos hc] at h
      cases hip : parseIntPart cs₁ with
      | none => rw [hip] at h; simp at h
      | some p =>
        obtain ⟨ip, cs₂⟩ := p
        rw [hip] at h
        rcases hfp : fracSpan cs₂ with ⟨f1, f2⟩
        rcases hep : expSpan f2 with ⟨e1, e2⟩
        simp only [hfp, hep, Option.some.injEq, Prod.mk.injEq] at h
        obtain ⟨hj, hrest⟩ := h
        obtain ⟨hdec, hips⟩ := parseIntPart_eq cs₁ ip cs₂ hip
        have hfe := fracSpan_eq cs₂
        simp only [hfp] at hfe
        have hee := expSpan_eq f2
        simp only [hep] at hee
        subst hc
        refine ⟨'-' :: ip ++ f1 ++ e1, hj.symm, ?_, ?_⟩
        · subst hrest
          rw [hdec, hfe.1, hee.1]
          simp [List.append_assoc]
        · exact ⟨['-'], ip, f1, e1, by simp, Or.inr rfl, hips, hfe.2, hee.2⟩
    · rw [if_neg hc] at h
      cases hip : parseIntPart (c :: cs₁) with
      | none => rw [hip] at h; simp at h
      | some p =>
        obtain ⟨ip, cs₂⟩ := p
        rw [hip] at h
        rcases hfp : fracSpan cs₂ with ⟨f1, f2⟩
        rcases hep : expSpan f2 with ⟨e1, e2⟩
        simp only [hfp, hep, Option.some.injEq, Prod.mk.injEq] at h
        obtain ⟨hj, hrest⟩ := h
        obtain ⟨hdec, hips⟩ := parseIntPart_eq (c :: cs₁) ip cs₂ hip
        have hfe := fracSpan_eq cs₂
        simp only [hfp] at hfe
        have hee := expSpan_eq f2
        simp only [hep] at hee
        refine ⟨ip ++ f1 ++ e1, hj.symm, ?_, ?_⟩
        · subst hrest
          rw [hdec, hfe.1, hee.1]
          simp [List.append_assoc]
        · exact ⟨[], ip, f1, e1, by simp, Or.inl rfl, hips, hfe.2, hee.2⟩

/-- Replaying a number parse on a continuation that cannot extend it. -/
theorem parseNumber_replay (lit X : List Char) (hsh : NumShape lit)
    (hX : noExtendL X = true) :
    parseNumber (lit ++ X) = some (Json.num lit, X) := by
  obtain ⟨sign, ip, f, e, rfl, hsign, hip, hf, he⟩ := hsh
  have hXh := noExtendL_head X hX
  have hXd : ∀ c, X.head? = some c → isDigitC c = false := fun c hc => (hXh c hc).1
  have heXd : ∀ c, (e ++ X).head? = some c → isDigitC c = false := by
    rcases he with h | ⟨ech, s, d, hes, hech, _, _, _⟩
    · subst h
      simpa using hXd
    · subst hes
      intro c hc
      simp only [List.cons_append, List.append_assoc, List.head?_cons,
        Option.some.injEq] at hc
      subst hc
      rcases hech with rfl | rfl <;> decide
  have heXdot : ∀ c, (e ++ X).head? = some c → c ≠ '.' := by
    rcases he with h | ⟨ech, s, d, hes, hech, _, _, _⟩
    · subst h
      intro c hc
      simp only [List.nil_append] at hc
      exact (hXh c hc).2.1
    · subst hes
      intro c hc
      simp only [List.cons_append, List.append_assoc, List.head?_cons,
        Option.some.injEq] at hc
      subst hc
      rcases hech with rfl | rfl <;> decide
  have hTd : ∀ c, (f ++ (e ++ X)).head? = some c → ¬(isDigitC c = true) := by
    rcases hf with h | ⟨d, hfs, hd, hall⟩
    · subst h
      intro c hc
      simp only [List.nil_append] at hc
      simp [heXd c hc]
    · subst hfs
      intro c hc
      simp only [List.cons_append, List.head?_cons, Option.some.injEq] at hc
      subst hc
      decide
  have hint : parseIntPart (ip ++ (f ++ (e ++ X))) = some (ip, f ++ (e ++ X)) :=
    parseIntPart_replay ip _ hip hTd
  have hfrac : fracSpan (f ++ (e ++ X)) = (f, e ++ X) := by
    rcases hf with h | ⟨d, hfs, hd, hall⟩
    · subst h
      simp only [List.nil_append]
      exact fracSpan_skip (e ++ X) heXdot
    · subst hfs
      exact fracSpan_replay d (e ++ X) hd hall heXd
  have hexp : expSpan (e ++ X) = (e, X) := by
    rcases he with h | ⟨ech, s, d, hes, hech, hs, hd, hall⟩
    · subst h
      simp only [List.nil_append]
      exact expSpan_skip X (fun c hc => ⟨(hXh c hc).2.2.1, (hXh c hc).2.2.2⟩)
    · subst hes
      exact expSpan_replay ech s d X hech hs hd hall hXd
  have hipall := intShape_all ip hip
  rcases hsign with h | h
  · subst h
    cases hips : ip with
    | nil => exact absurd hips (intShape_ne ip hip)
    | cons a ip' =>
      subst hips
      have hin : (([] ++ (a :: ip')) ++ f) ++ e ++ X = a :: (ip' ++ (f ++ (e ++ X))) := by
        simp [List.append_assoc]
      rw [hin]
      have ha : isDigitC a := hipall a (by simp)
      have hane : a ≠ '-' := isDigitC_ne_of a '-' ha (by decide)
      simp only [parseNumber]
      rw [if_neg hane]
      have hint' : parseIntPart (a :: (ip' ++ (f ++ (e ++ X)))) =
          some (a :: ip', f ++ (e ++ X)) := by
        simpa using hint
      rw [hint']
      simp [hfrac, hexp]
  · subst h
    have hin : ((['-'] ++ ip) ++ f) ++ e ++ X = '-' :: (ip ++ (f ++ (e ++ X))) := by
      simp [List.append_assoc]
    rw [hin]
    simp only [parseNumber, if_true]
    rw [hint]
    simp [hfrac, hexp]

/-- Hexadecimal digits print and re-read to themselves. -/
theorem hexVal?_hexDigit : ∀ n, n < 16 → hexVal? (hexDigit n) = some n := by
  decide

/-- Appending onto a nonempty tail keeps the tail's last element. -/
theorem getLast?_append_of_ne (l₁ pre : List Char) (h : pre ≠ []) :
    (l₁ ++ pre).getLast? = pre.getLast? := by
  obtain ⟨y, hy⟩ := getLast?_some_of_ne pre h
  rw [List.getLast?_append, hy, Option.or_some]

/-- Analysis of a successful string-body parse: the consumed span ends at
the closing quote and can be replayed on any continuation. -/
theorem parseStringBody_frame : ∀ n (cs : List Char), cs.length ≤ n →
    ∀ s rest, parseStringBody cs = some (s, rest) →
    ∃ pre, cs = pre ++ rest ∧ pre ≠ [] ∧ pre.getLast? = some '"' ∧
      ∀ rest', parseStringBody (pre ++ rest') = some (s, rest') := by
  intro n
  induction n with
  | zero =>
    intro cs hlen s rest h
    have : cs = [] := List.length_eq_zero.mp (Nat.le_zero.mp hlen)
    subst this
    exact Option.noConfusion h
  | succ n ih =>
    intro cs hlen s rest h
    cases cs with
    | nil => exact Option.noConfusion h
    | cons c cs' =>
      rw [parseStringBody.eq_def] at h
      try dsimp only [] at h
      by_cases hq : c = '"'
      · rw [if_pos hq] at h
        simp only [Option.some.injEq, Prod.mk.injEq] at h
        obtain ⟨hs, hrest⟩ := h
        subst hq
        subst hs
        subst hrest
        refine ⟨['"'], rfl, by simp, rfl, fun rest' => ?_⟩
        rw [List.singleton_append, parseStringBody.eq_def]
        try dsimp only []
        rw [if_pos rfl]
      · rw [if_neg hq] at h
        by_cases hb : c = '\\'
        · rw [if_pos hb] at h
          cases cs' with
          | nil => exact Option.noConfusion h
          | cons e rest₂ =>
            try dsimp only [] at h
            by_cases hu : e = 'u'
            · rw [if_pos hu] at h
              match rest₂ with
              | [] => exact Option.noConfusion h
              | [a] => exact Option.noConfusion h
              | [a, b] => exact Option.noConfusion h
              | [a, b, c₂] => exact Option.noConfusion h
              | a :: b :: c₂ :: d :: rest₃ =>
                try dsimp only [] at h
                cases hha : hexVal? a with
                | none => rw [hha] at h; exact Option.noConfusion h
                | some va =>
                  cases hhb : hexVal? b with
                  | none => rw [hha, hhb] at h; exact Option.noConfusion h
                  | some vb =>
                    cases hhc : hexVal? c₂ with
                    | none => rw [hha, hhb, hhc] at h; exact Option.noConfusion h
                    | some vc =>
                      cases hhd : hexVal? d with
                      | none => rw [hha, hhb, hhc, hhd] at h; exact Option.noConfusion h
                      | some vd =>
                        rw [hha, hhb, hhc, hhd] at h
                        try dsimp only [] at h
                        by_cases hvalid :
                          ((va * 16 + vb) * 16 + vc) * 16 + vd < 0xd800 ∨
                            0xe000 ≤ ((va * 16 + vb) * 16 + vc) * 16 + vd
                        · rw [if_pos (by simpa using hvalid)] at h
                          rw [Option.map_eq_some'] at h
                          obtain ⟨⟨s', rest₀⟩, hp, hsr⟩ := h
                          simp only [Prod.mk.injEq] at hsr
                          obtain ⟨hs, hrest⟩ := hsr
                          subst hs
                          subst hrest
                          have hlen₃ : rest₃.length ≤ n := by
                            simp only [List.length_cons] at hlen
                            omega
                          obtain ⟨pre, hpre, hpne, hplast, hreplay⟩ :=
                            ih rest₃ hlen₃ s' rest₀ hp
                          subst hb
                          subst hu
                          refine ⟨'\\' :: 'u' :: a :: b :: c₂ :: d :: pre, by simp [hpre],
                            by simp, ?_, fun rest' => ?_⟩
                          · rw [show ('\\' :: 'u' :: a :: b :: c₂ :: d :: pre)
                              = ['\\', 'u', a, b, c₂, d] ++ pre from rfl,
                              getLast?_append_of_ne _ _ hpne]
                            exact hplast
                          · rw [show ('\\' :: 'u' :: a :: b :: c₂ :: d :: pre) ++ rest'
                              = '\\' :: 'u' :: a :: b :: c₂ :: d :: (pre ++ rest') from by simp,
                              parseStringBody.eq_def]
                            try dsimp only []
                            rw [if_neg (by decide), if_pos rfl, if_pos rfl]
                            try dsimp only []
                            rw [hha, hhb, hhc, hhd]
                            dsimp only []
                            rw [if_pos (by simpa using hvalid), hreplay rest']
                            simp
                        · rw [if_neg (by simpa using hvalid)] at h
                          simp at h
            · rw [if_neg hu] at h
              cases hm : escMap e with
              | none => rw [hm] at h; simp at h
              | some ec =>
                rw [hm, Option.map_eq_some'] at h
                obtain ⟨⟨s', rest₀⟩, hp, hsr⟩ := h
                simp only [Prod.mk.injEq] at hsr
                obtain ⟨hs, hrest⟩ := hsr
                subst hs
                subst hrest
                have hlen₂ : rest₂.length ≤ n := by
                  simp only [List.length_cons] at hlen
                  omega
                obtain ⟨pre, hpre, hpne, hplast, hreplay⟩ := ih rest₂ hlen₂ s' rest₀ hp
                subst hb
                refine ⟨'\\' :: e :: pre, by simp [hpre], by simp, ?_, fun rest' => ?_⟩
                · rw [show ('\\' :: e :: pre) = ['\\', e] ++ pre from rfl,
                    getLast?_append_of_ne _ _ hpne]
                  exact hplast
                · rw [show ('\\' :: e :: pre) ++ rest'
                    = '\\' :: e :: (pre ++ rest') from by simp,
                    parseStringBody.eq_def]
                  try dsimp only []
                  rw [if_neg (by decide), if_pos rfl, if_neg hu, hm, hreplay rest']
                  simp
        · rw [if_neg hb] at h
          by_cases hctl : c.toNat < 0x20
          · rw [if_pos hctl] at h
            simp at h
          · rw [if_neg hctl] at h
            rw [Option.map_eq_some'] at h
            obtain ⟨⟨s', rest₀⟩, hp, hsr⟩ := h
            simp only [Prod.mk.injEq] at hsr
            obtain ⟨hs, hrest⟩ := hsr
            subst hs
            subst hrest
            have hlen' : cs'.length ≤ n := by
              simp only [List.length_cons] at hlen
              omega
            obtain ⟨pre, hpre, hpne, hplast, hreplay⟩ := ih cs' hlen' s' rest₀ hp
            refine ⟨c :: pre, by simp [hpre], by simp, ?_, fun rest' => ?_⟩
            · rw [show (c :: pre) = [c] ++ pre from rfl, getLast?_append_of_ne _ _ hpne]
              exact hplast
            · rw [show (c :: pre) ++ rest' = c :: (pre ++ rest') from by simp,
                parseStringBody.eq_def]
              try dsimp only []
              rw [if_neg hq, if_neg hb, if_neg hctl, hreplay rest']
              simp

/-- A closing quote ends the string body. -/
theorem parseStringBody_quote (rest : List Char) :
    parseStringBody ('"' :: rest) = some ([], rest) := by
  rw [parseStringBody.eq_def]
  try dsimp only []
  rw [if_pos rfl]

/-- One escaped character re-reads to the character it encodes, in any
context. -/
theorem escapeChar_parse (c : Char) (X : List Char) :
    parseStringBody (escapeChar c ++ X) =
      (parseStringBody X).map (fun p => (c :: p.1, p.2)) := by
  by_cases h1 : c = '"'
  · subst h1
    rw [show escapeChar '"' = ['\\', '"'] from by decide,
      show (['\\', '"'] : List Char) ++ X = '\\' :: '"' :: X from rfl,
      parseStringBody.eq_def]
    try dsimp only []
    rw [if_neg (by decide : ¬('\\' = '"')), if_pos rfl]
    try dsimp only []
    rw [if_neg (by decide : ¬('"' = 'u')), show escMap '"' = some '"' from by decide]
  · by_cases h2 : c = '\\'
    · subst h2
      rw [show escapeChar '\\' = ['\\', '\\'] from by decide,
        show (['\\', '\\'] : List Char) ++ X = '\\' :: '\\' :: X from rfl,
        parseStringBody.eq_def]
      try dsimp only []
      rw [if_neg (by decide : ¬('\\' = '"')), if_pos rfl]
      try dsimp only []
      rw [if_neg (by decide : ¬('\\' = 'u')), show escMap '\\' = some '\\' from by decide]
    · by_cases h3 : c = '\n'
      · subst h3
        rw [show escapeChar '\n' = ['\\', 'n'] from by decide,
          show (['\\', 'n'] : List Char) ++ X = '\\' :: 'n' :: X from rfl,
          parseStringBody.eq_def]
        try dsimp only []
        rw [if_neg (by decide : ¬('\\' = '"')), if_pos rfl]
        try dsimp only []
        rw [if_neg (by decide : ¬('n' = 'u')), show escMap 'n' = some '\n' from by decide]
      · by_cases h4 : c = '\r'
        · subst h4
          rw [show escapeChar '\r' = ['\\', 'r'] from by decide,
            show (['\\', 'r'] : List Char) ++ X = '\\' :: 'r' :: X from rfl,
            parseStringBody.eq_def]
          try dsimp only []
          rw [if_neg (by decide : ¬('\\' = '"')), if_pos rfl]
          try dsimp only []
          rw [if_neg (by decide : ¬('r' = 'u')), show escMap 'r' = some '\r' from by decide]
        · by_cases h5 : c = '\t'
          · subst h5
            rw [show escapeChar '\t' = ['\\', 't'] from by decide,
              show (['\\', 't'] : List Char) ++ X = '\\' :: 't' :: X from rfl,
              parseStringBody.eq_def]
            try dsimp only []
            rw [if_neg (by decide : ¬('\\' = '"')), if_pos rfl]
            try dsimp only []
            rw [if_neg (by decide : ¬('t' = 'u')), show escMap 't' = some '\t' from by decide]
          · by_cases h6 : c = '\x08'
            · subst h6
              rw [show escapeChar '\x08' = ['\\', 'b'] from by decide,
                show (['\\', 'b'] : List Char) ++ X = '\\' :: 'b' :: X from rfl,
                parseStringBody.eq_def]
              try dsimp only []
              rw [if_neg (by decide : ¬('\\' = '"')), if_pos rfl]
              try dsimp only []
              rw [if_neg (by decide : ¬('b' = 'u')),
                show escMap 'b' = some '\x08' from by decide]
            · by_cases h7 : c = '\x0c'
              · subst h7
                rw [show escapeChar '\x0c' = ['\\', 'f'] from by decide,
                  show (['\\', 'f'] : List Char) ++ X = '\\' :: 'f' :: X from rfl,
                  parseStringBody.eq_def]
                try dsimp only []
                rw [if_neg (by decide : ¬('\\' = '"')), if_pos rfl]
                try dsimp only []
                rw [if_neg (by decide : ¬('f' = 'u')),
                  show escMap 'f' = some '\x0c' from by decide]
              · by_cases h8 : c.toNat < 0x20
                · simp only [escapeChar, if_neg h1, if_neg h2, if_neg h3, if_neg h4,
                    if_neg h5, if_neg h6, if_neg h7, if_pos h8, List.cons_append]
                  rw [parseStringBody.eq_def]
                  try dsimp only []
                  rw [if_neg (by decide), if_pos rfl, if_pos rfl]
                  try dsimp only []
                  have hhi : hexVal? (hexDigit (c.toNat / 16)) = some (c.toNat / 16) :=
                    hexVal?_hexDigit _ (by omega)
                  have hlo : hexVal? (hexDigit (c.toNat % 16)) = some (c.toNat % 16) :=
                    hexVal?_hexDigit _ (by omega)
                  rw [show hexVal? '0' = some 0 from rfl, hhi, hlo]
                  try dsimp only []
                  have hn : ((0 * 16 + 0) * 16 + c.toNat / 16) * 16 + c.toNat % 16
                      = c.toNat := by omega
                  rw [if_pos (by rw [hn]; simp only [Bool.or_eq_true, decide_eq_true_eq]; omega)]
                  rw [hn, Char.ofNat_toNat, List.nil_append]
                · simp only [escapeChar, if_neg h1, if_neg h2, if_neg h3, if_neg h4,
                    if_neg h5, if_neg h6, if_neg h7, if_neg h8, List.singleton_append]
                  rw [parseStringBody.eq_def]
                  try dsimp only []
                  rw [if_neg h1, if_neg h2, if_neg h8]

/-- A printed string body re-reads to the original characters, in any
context. -/
theorem printStrBody_parse (s : List Char) (X : List Char) :
    parseStringBody ((s.map escapeChar).flatten ++ X) =
      (parseStringBody X).map (fun p => (s ++ p.1, p.2)) := by
  induction s with
  | nil =>
    simp only [List.map_nil, List.flatten_nil, List.nil_append]
    cases hX : parseStringBody X with
    | none => rfl
    | some p => simp
  | cons c cs ih =>
    rw [show ((c :: cs).map escapeChar).flatten ++ X
      = escapeChar c ++ ((cs.map escapeChar).flatten ++ X) from by
        simp [List.append_assoc]]
    rw [escapeChar_parse, ih]
    cases hX : parseStringBody X with
    | none => rfl
    | some p => simp

/-- A printed string literal parses back to its characters. -/
theorem printStr_parse (s rest : List Char) :
    parseStringBody ((s.map escapeChar).flatten ++ ('"' :: rest)) = some (s, rest) := by
  rw [printStrBody_parse, parseStringBody_quote]
  simp

/-- The head of a nonempty left summand is the head of the append. -/
theorem head?_append_of_ne (l₁ l₂ : List Char) (h : l₁ ≠ []) :
    (l₁ ++ l₂).head? = l₁.head? := by
  cases l₁ with
  | nil => exact absurd rfl h
  | cons c cs => simp

/-- A list with a head is that head consed onto its tail. -/
theorem eq_cons_of_head? (l : List Char) (x : Char) (h : l.head? = some x) :
    l = x :: l.tail := by
  cases l with
  | nil => simp at h
  | cons c cs =>
    simp only [List.head?_cons, Option.some.injEq] at h
    subst h
    rfl

/-- Enumeration of the JSON whitespace characters. -/
theorem isJsonWs_cases (c : Char) (h : isJsonWs c = true) :
    c = ' ' ∨ c = '\t' ∨ c = '\n' ∨ c = '\r' := by
  unfold isJsonWs at h
  simp only [Bool.or_eq_true, decide_eq_true_eq] at h
  tauto

/-- Whitespace cannot continue a number token. -/
theorem isJsonWs_noExtendChar (c : Char) (h : isJsonWs c = true) :
    (isDigitC c || c = '.' || c = 'e' || c = 'E') = false := by
  rcases isJsonWs_cases c h with rfl | rfl | rfl | rfl <;> decide

/-- Build a `noExtendL` certificate from a head condition. -/
theorem noExtendL_mk (cs : List Char)
    (h : ∀ c, cs.head? = some c → (isDigitC c || c = '.' || c = 'e' || c = 'E') = false) :
    noExtendL cs = true := by
  cases cs with
  | nil => rfl
  | cons x xs =>
    have := h x rfl
    simp only [noExtendL, Bool.not_eq_true']
    exact this

/-- Whitespace followed by a delimiter cannot extend a number token. -/
theorem noExtendL_ws_delim (ws : List Char) (x : Char) (X : List Char)
    (hws : ∀ c ∈ ws, isJsonWs c)
    (hx : (isDigitC x || x = '.' || x = 'e' || x = 'E') = false) :
    noExtendL (ws ++ (x :: X)) = true := by
  apply noExtendL_mk
  intro c hc
  cases ws with
  | nil =>
    simp only [List.nil_append, List.head?_cons, Option.some.injEq] at hc
    subst hc
    exact hx
  | cons w ws' =>
    simp only [List.cons_append, List.head?_cons, Option.some.injEq] at hc
    subst hc
    exact isJsonWs_noExtendChar w (hws w (by simp))

/-- Digits are not Python whitespace. -/
theorem isDigitC_not_pyws (c : Char) (h : isDigitC c = true) : isPyWs c = false := by
  have h1 := isDigitC_ne_of c ' ' h (by decide)
  have h2 := isDigitC_ne_of c '\t' h (by decide)
  have h3 := isDigitC_ne_of c '\n' h (by decide)
  have h4 := isDigitC_ne_of c '\r' h (by decide)
  have h5 := isDigitC_ne_of c '\x0b' h (by decide)
  have h6 := isDigitC_ne_of c '\x0c' h (by decide)
  simp [isPyWs, isJsonWs, h1, h2, h3, h4, h5, h6]

/-- Value-start characters are not Python whitespace. -/
theorem isStartChar_not_pyws (c : Char) (h : isStartChar c = true) : isPyWs c = false := by
  unfold isStartChar at h
  simp only [Bool.or_eq_true, decide_eq_true_eq] at h
  rcases h with ((((((h | h) | h) | h) | h) | h) | h) | h
  · subst h; decide
  · subst h; decide
  · subst h; decide
  · subst h; decide
  · subst h; decide
  · subst h; decide
  · subst h; decide
  · exact isDigitC_not_pyws c h

/-- Value-start characters are not JSON whitespace. -/
theorem isStartChar_not_jsonws (c : Char) (h : isStartChar c = true) :
    isJsonWs c = false := by
  have hp := isStartChar_not_pyws c h
  unfold isPyWs at hp
  rcases Bool.or_eq_false_iff.mp hp with ⟨hp1, _⟩
  exact Bool.or_eq_false_iff.mp hp1 |>.1

/-- Splitting off the whitespace prefix. -/
theorem skipWs_decomp (cs : List Char) :
    cs = cs.takeWhile isJsonWs ++ skipWs cs ∧
      ∀ c ∈ cs.takeWhile isJsonWs, isJsonWs c :=
  ⟨(List.takeWhile_append_dropWhile isJsonWs cs).symm,
    fun _ hc => List.mem_takeWhile_imp hc⟩

theorem parserMaster : ∀ f, MasterValP f ∧ MasterMembersP f ∧ MasterElemsP f := by
  intro f
  induction f using Nat.strong_induction_on with
  | _ f IH =>
  refine ⟨?_, ?_, ?_⟩
  · -- MasterValP
    intro cs v rest h
    match f with
    | 0 =>
      rw [parseVal.eq_def] at h
      exact Option.noConfusion h
    | g + 1 =>
      rw [parseVal.eq_def] at h
      try dsimp only [] at h
      cases cs with
      | nil => exact Option.noConfusion h
      | cons c rest₁ =>
        try dsimp only [] at h
        by_cases hq : c = '"'
        · rw [if_pos hq] at h
          rw [Option.map_eq_some'] at h
          obtain ⟨⟨s, rest₀⟩, hp, heq⟩ := h
          simp only [Prod.mk.injEq] at heq
          obtain ⟨hv, hr⟩ := heq
          subst hv
          subst hr
          subst hq
          obtain ⟨preS, hpre, hpne, hplast, hreplay⟩ :=
            parseStringBody_frame rest₁.length rest₁ le_rfl s rest₀ hp
          refine ⟨WF.str s, '"' :: preS, by simp [hpre], by simp, ?_, ?_, ?_⟩
          · intro h hh
            simp only [List.head?_cons, Option.some.injEq] at hh
            subst hh
            decide
          · intro h hh
            rw [show ('"' :: preS) = ['"'] ++ preS from rfl,
              getLast?_append_of_ne _ _ hpne, hplast] at hh
            have := Option.some.inj hh
            subst this
            decide
          · intro f' rest' hf' hne
            match f' with
            | g' + 1 =>
              rw [show ('"' :: preS) ++ rest' = '"' :: (preS ++ rest') from by simp,
                parseVal.eq_def]
              try dsimp only []
              rw [if_pos rfl, hreplay rest']
              rfl
        · by_cases hob : c = '{'
          · rw [if_neg hq, if_pos hob] at h
            by_cases hemp : (skipWs rest₁).head? = some '}'
            · rw [if_pos hemp] at h
              simp only [Option.some.injEq, Prod.mk.injEq] at h
              obtain ⟨hv, hr⟩ := h
              subst hv
              subst hob
              obtain ⟨hdec, hws⟩ := skipWs_decomp rest₁
              have hsk := eq_cons_of_head? _ _ hemp
              refine ⟨WF.obj [] (by simp), '{' :: (rest₁.takeWhile isJsonWs ++ ['}']),
                ?_, by simp, ?_, ?_, ?_⟩
              · rw [← hr]
                rw [show ('{' :: (rest₁.takeWhile isJsonWs ++ ['}'])) ++ (skipWs rest₁).tail
                  = '{' :: (rest₁.takeWhile isJsonWs ++ ('}' :: (skipWs rest₁).tail)) from by
                    simp]
                rw [← hsk, ← hdec]
              · intro h hh
                simp only [List.head?_cons, Option.some.injEq] at hh
                subst hh
                decide
              · intro h hh
                rw [show ('{' :: (rest₁.takeWhile isJsonWs ++ ['}']))
                  = ('{' :: rest₁.takeWhile isJsonWs) ++ ['}'] from by simp,
                  List.getLast?_concat] at hh
                have := Option.some.inj hh
                subst this
                decide
              · intro f' rest' hf' hne
                match f' with
                | g' + 1 =>
                  rw [show ('{' :: (rest₁.takeWhile isJsonWs ++ ['}'])) ++ rest'
                    = '{' :: (rest₁.takeWhile isJsonWs ++ ('}' :: rest')) from by simp]
                  rw [parseVal.eq_def]
                  try dsimp only []
                  rw [if_neg (by decide), if_pos rfl]
                  rw [skipWs_append _ _ hws (by
                    intro h' hh'
                    simp only [List.head?_cons, Option.some.injEq] at hh'
                    subst hh'
                    decide)]
                  rw [if_pos (by simp)]
                  rfl
            · rw [if_neg hemp] at h
              rw [Option.map_eq_some'] at h
              obtain ⟨⟨ms, rest₀⟩, hp, heq⟩ := h
              simp only [Prod.mk.injEq] at heq
              obtain ⟨hv, hr⟩ := heq
              subst hv
              subst hr
              subst hob
              obtain ⟨hWFms, preM, hpreM, hheadM, hlastM, hreplayM⟩ :=
                (IH g (by omega)).2.1 (skipWs rest₁) ms rest₀ hp
              have hMne : preM ≠ [] := by
                intro he
                rw [he] at hheadM
                simp at hheadM
              obtain ⟨hdec, hws⟩ := skipWs_decomp rest₁
              refine ⟨WF.obj ms hWFms, '{' :: (rest₁.takeWhile isJsonWs ++ preM),
                ?_, by simp, ?_, ?_, ?_⟩
              · rw [show ('{' :: (rest₁.takeWhile isJsonWs ++ preM)) ++ rest₀
                  = '{' :: (rest₁.takeWhile isJsonWs ++ (preM ++ rest₀)) from by simp,
                  ← hpreM, ← hdec]
              · intro h hh
                simp only [List.head?_cons, Option.some.injEq] at hh
                subst hh
                decide
              · intro h hh
                rw [show ('{' :: (rest₁.takeWhile isJsonWs ++ preM))
                  = ('{' :: rest₁.takeWhile isJsonWs) ++ preM from by simp,
                  getLast?_append_of_ne _ _ hMne, hlastM] at hh
                have := Option.some.inj hh
                subst this
                decide
              · intro f' rest' hf' hne
                match f' with
                | g' + 1 =>
                  rw [show ('{' :: (rest₁.takeWhile isJsonWs ++ preM)) ++ rest'
                    = '{' :: (rest₁.takeWhile isJsonWs ++ (preM ++ rest')) from by simp]
                  rw [parseVal.eq_def]
                  try dsimp only []
                  rw [if_neg (by decide), if_pos rfl]
                  rw [skipWs_append _ _ hws (by
                    intro h' hh'
                    rw [head?_append_of_ne _ _ hMne, hheadM] at hh'
                    have := Option.some.inj hh'
                    subst this
                    decide)]
                  rw [if_neg (by
                    rw [head?_append_of_ne _ _ hMne, hheadM]
                    simp), hreplayM g' rest' (by
                      simp only [List.length_cons, List.length_append] at hf' ⊢
                      omega)]
                  rfl
          · by_cases hab : c = '['
            · rw [if_neg hq, if_neg hob, if_pos hab] at h
              by_cases hemp : (skipWs rest₁).head? = some ']'
              · rw [if_pos hemp] at h
                simp only [Option.some.injEq, Prod.mk.injEq] at h
                obtain ⟨hv, hr⟩ := h
                subst hv
                subst hab
                obtain ⟨hdec, hws⟩ := skipWs_decomp rest₁
                have hsk := eq_cons_of_head? _ _ hemp
                refine ⟨WF.arr [] (by simp), '[' :: (rest₁.takeWhile isJsonWs ++ [']']),
                  ?_, by simp, ?_, ?_, ?_⟩
                · rw [← hr]
                  rw [show ('[' :: (rest₁.takeWhile isJsonWs ++ [']'])) ++ (skipWs rest₁).tail
                    = '[' :: (rest₁.takeWhile isJsonWs ++ (']' :: (skipWs rest₁).tail)) from by
                      simp]
                  rw [← hsk, ← hdec]
                · intro h hh
                  simp only [List.head?_cons, Option.some.injEq] at hh
                  subst hh
                  decide
                · intro h hh
                  rw [show ('[' :: (rest₁.takeWhile isJsonWs ++ [']']))
                    = ('[' :: rest₁.takeWhile isJsonWs) ++ [']'] from by simp,
                    List.getLast?_concat] at hh
                  have := Option.some.inj hh
                  subst this
                  decide
                · intro f' rest' hf' hne
                  match f' with
                  | g' + 1 =>
                    rw [show ('[' :: (rest₁.takeWhile isJsonWs ++ [']'])) ++ rest'
                      = '[' :: (rest₁.takeWhile isJsonWs ++ (']' :: rest')) from by simp]
                    rw [parseVal.eq_def]
                    try dsimp only []
                    rw [if_neg (by decide), if_neg (by decide), if_pos rfl]
                    rw [skipWs_append _ _ hws (by
                      intro h' hh'
                      simp only [List.head?_cons, Option.some.injEq] at hh'
                      subst hh'
                      decide)]
                    rw [if_pos (by simp)]
                    rfl
              · rw [if_neg hemp] at h
                rw [Option.map_eq_some'] at h
                obtain ⟨⟨l, rest₀⟩, hp, heq⟩ := h
                simp only [Prod.mk.injEq] at heq
                obtain ⟨hv, hr⟩ := heq
                subst hv
                subst hr
                subst hab
                obtain ⟨hWFl, preE, hpreE, hEne, hheadE, hlastE, hreplayE⟩ :=
                  (IH g (by omega)).2.2 (skipWs rest₁) l rest₀ hp
                obtain ⟨hdec, hws⟩ := skipWs_decomp rest₁
                refine ⟨WF.arr l hWFl, '[' :: (rest₁.takeWhile isJsonWs ++ preE),
                  ?_, by simp, ?_, ?_, ?_⟩
                · rw [show ('[' :: (rest₁.takeWhile isJsonWs ++ preE)) ++ rest₀
                    = '[' :: (rest₁.takeWhile isJsonWs ++ (preE ++ rest₀)) from by simp,
                    ← hpreE, ← hdec]
                · intro h hh
                  simp only [List.head?_cons, Option.some.injEq] at hh
                  subst hh
                  decide
                · intro h hh
                  rw [show ('[' :: (rest₁.takeWhile isJsonWs ++ preE))
                    = ('[' :: rest₁.takeWhile isJsonWs) ++ preE from by simp,
                    getLast?_append_of_ne _ _ hEne, hlastE] at hh
                  have := Option.some.inj hh
                  subst this
                  decide
                · intro f' rest' hf' hne
                  match f' with
                  | g' + 1 =>
                    rw [show ('[' :: (rest₁.takeWhile isJsonWs ++ preE)) ++ rest'
                      = '[' :: (rest₁.takeWhile isJsonWs ++ (preE ++ rest')) from by simp]
                    rw [parseVal.eq_def]
                    try dsimp only []
                    rw [if_neg (by decide), if_neg (by decide), if_pos rfl]
                    rw [skipWs_append _ _ hws (by
                      intro h' hh'
                      rw [head?_append_of_ne _ _ hEne] at hh'
                      have := isStartChar_not_jsonws h' (hheadE h' hh')
                      simp [this])]
                    rw [if_neg (by
                      rw [head?_append_of_ne _ _ hEne]
                      intro hcon
                      have := hheadE _ hcon
                      exact absurd this (by decide)), hreplayE g' rest' (by
                        simp only [List.length_cons, List.length_append] at hf' ⊢
                        omega)]
                    rfl
            · by_cases ht : c = 't'
              · rw [if_neg hq, if_neg hob, if_neg hab, if_pos ht] at h
                by_cases hpr : hasPre ['r', 'u', 'e'] rest₁
                · rw [if_pos hpr] at h
                  simp only [Option.some.injEq, Prod.mk.injEq] at h
                  obtain ⟨hv, hr⟩ := h
                  subst hv
                  subst ht
                  have hdec3 := hasPre_decomp ['r', 'u', 'e'] rest₁ hpr
                  refine ⟨WF.bool true, ['t', 'r', 'u', 'e'], ?_, by simp, ?_, ?_, ?_⟩
                  · rw [← hr]
                    conv_lhs => rw [hdec3]
                    simp
                  · intro h hh
                    have := Option.some.inj hh
                    subst this
                    decide
                  · intro h hh
                    have : 'e' = h := by simpa using hh
                    subst this
                    decide
                  · intro f' rest' hf' hne
                    match f' with
                    | g' + 1 =>
                      rw [show (['t', 'r', 'u', 'e'] : List Char) ++ rest'
                        = 't' :: ('r' :: 'u' :: 'e' :: rest') from rfl, parseVal.eq_def]
                      try dsimp only []
                      rw [if_neg (by decide), if_neg (by decide), if_neg (by decide),
                        if_pos rfl,
                        if_pos (by exact hasPre_append ['r', 'u', 'e'] rest')]
                      rfl
                · rw [if_neg hpr] at h
                  exact Option.noConfusion h
              · by_cases hfa : c = 'f'
                · rw [if_neg hq, if_neg hob, if_neg hab, if_neg ht, if_pos hfa] at h
                  by_cases hpr : hasPre ['a', 'l', 's', 'e'] rest₁
                  · rw [if_pos hpr] at h
                    simp only [Option.some.injEq, Prod.mk.injEq] at h
                    obtain ⟨hv, hr⟩ := h
                    subst hv
                    subst hfa
                    have hdec4 := hasPre_decomp ['a', 'l', 's', 'e'] rest₁ hpr
                    refine ⟨WF.bool false, ['f', 'a', 'l', 's', 'e'], ?_, by simp, ?_, ?_, ?_⟩
                    · rw [← hr]
                      conv_lhs => rw [hdec4]
                      simp
                    · intro h hh
                      have := Option.some.inj hh
                      subst this
                      decide
                    · intro h hh
                      have : 'e' = h := by simpa using hh
                      subst this
                      decide
                    · intro f' rest' hf' hne
                      match f' with
                      | g' + 1 =>
                        rw [show (['f', 'a', 'l', 's', 'e'] : List Char) ++ rest'
                          = 'f' :: ('a' :: 'l' :: 's' :: 'e' :: rest') from rfl, parseVal.eq_def]
                        try dsimp only []
                        rw [if_neg (by decide), if_neg (by decide), if_neg (by decide),
                          if_neg (by decide), if_pos rfl,
                          if_pos (by exact hasPre_append ['a', 'l', 's', 'e'] rest')]
                        rfl
                  · rw [if_neg hpr] at h
                    exact Option.noConfusion h
                · by_cases hn : c = 'n'
                  · rw [if_neg hq, if_neg hob, if_neg hab, if_neg ht, if_neg hfa,
                      if_pos hn] at h
                    by_cases hpr : hasPre ['u', 'l', 'l'] rest₁
                    · rw [if_pos hpr] at h
                      simp only [Option.some.injEq, Prod.mk.injEq] at h
                      obtain ⟨hv, hr⟩ := h
                      subst hv
                      subst hn
                      have hdec3 := hasPre_decomp ['u', 'l', 'l'] rest₁ hpr
                      refine ⟨WF.null, ['n', 'u', 'l', 'l'], ?_, by simp, ?_, ?_, ?_⟩
                      · rw [← hr]
                        conv_lhs => rw [hdec3]
                        simp
                      · intro h hh
                        have := Option.some.inj hh
                        subst this
                        decide
                      · intro h hh
                        have : 'l' = h := by simpa using hh
                        subst this
                        decide
                      · intro f' rest' hf' hne
                        match f' with
                        | g' + 1 =>
                          rw [show (['n', 'u', 'l', 'l'] : List Char) ++ rest'
                            = 'n' :: ('u' :: 'l' :: 'l' :: rest') from rfl, parseVal.eq_def]
                          try dsimp only []
                          rw [if_neg (by decide), if_neg (by decide), if_neg (by decide),
                            if_neg (by decide), if_neg (by decide), if_pos rfl,
                            if_pos (by exact hasPre_append ['u', 'l', 'l'] rest')]
                          rfl
                    · rw [if_neg hpr] at h
                      exact Option.noConfusion h
                  · rw [if_neg hq, if_neg hob, if_neg hab, if_neg ht, if_neg hfa,
                      if_neg hn] at h
                    obtain ⟨lit, hv, hdec, hsh⟩ := parseNumber_eq (c :: rest₁) v rest h
                    subst hv
                    obtain ⟨hlitne, hlithead, hlitlast⟩ := numShape_facts lit hsh
                    refine ⟨WF.num lit hsh, lit, hdec, hlitne, ?_, ?_, ?_⟩
                    · intro h' hh'
                      rcases hlithead h' hh' with h9 | h9
                      · subst h9
                        decide
                      · unfold isStartChar
                        simp [h9]
                    · intro h' hh'
                      exact isDigitC_not_pyws h' (hlitlast h' hh')
                    · intro f' rest' hf' hne
                      match f' with
                      | g' + 1 =>
                        cases hlit : lit with
                        | nil => exact absurd hlit hlitne
                        | cons l0 lit' =>
                          subst hlit
                          have hl0 := hlithead l0 (by simp)
                          have hstart : ∀ x : Char, isDigitC x = false → '-' ≠ x → l0 ≠ x := by
                            intro x hx hmx
                            rcases hl0 with h9 | h9
                            · subst h9
                              exact hmx
                            · exact isDigitC_ne_of l0 x h9 hx
                          rw [show (l0 :: lit') ++ rest' = l0 :: (lit' ++ rest') from by simp,
                            parseVal.eq_def]
                          try dsimp only []
                          rw [if_neg (hstart '"' (by decide) (by decide)),
                            if_neg (hstart '{' (by decide) (by decide)),
                            if_neg (hstart '[' (by decide) (by decide)),
                            if_neg (hstart 't' (by decide) (by decide)),
                            if_neg (hstart 'f' (by decide) (by decide)),
                            if_neg (hstart 'n' (by decide) (by decide))]
                          rw [show l0 :: (lit' ++ rest') = (l0 :: lit') ++ rest' from by simp]
                          exact parseNumber_replay (l0 :: lit') rest' hsh hne
  · -- MasterMembersP
    intro cs ms rest h
    match f with
    | 0 =>
      rw [parseMembers.eq_def] at h
      exact Option.noConfusion h
    | g + 1 =>
      rw [parseMembers.eq_def] at h
      try dsimp only [] at h
      cases cs with
      | nil => exact Option.noConfusion h
      | cons c rest₁ =>
        try dsimp only [] at h
        by_cases hq : c = '"'
        · rw [if_pos hq] at h
          cases hsb : parseStringBody rest₁ with
          | none => rw [hsb] at h; exact Option.noConfusion h
          | some p =>
            obtain ⟨key, cs₂⟩ := p
            rw [hsb] at h
            try dsimp only [] at h
            by_cases hcol : (skipWs cs₂).head? = some ':'
            · rw [if_pos hcol] at h
              cases hpv : parseVal g (skipWs ((skipWs cs₂).tail)) with
              | none => rw [hpv] at h; exact Option.noConfusion h
              | some q =>
                obtain ⟨v, cs₄⟩ := q
                rw [hpv] at h
                try dsimp only [] at h
                obtain ⟨preK, hpreK, hKne, hKlast, hKreplay⟩ :=
                  parseStringBody_frame rest₁.length rest₁ le_rfl key cs₂ hsb
                obtain ⟨hWFv, preV, hpreV, hVne, hVhead, hVlast, hVreplay⟩ :=
                  (IH g (by omega)).1 _ v cs₄ hpv
                obtain ⟨hdec₂, hws₂⟩ := skipWs_decomp cs₂
                have hcolcons := eq_cons_of_head? _ _ hcol
                obtain ⟨hdec₃, hws₃⟩ := skipWs_decomp ((skipWs cs₂).tail)
                have hVheadws : ∀ h', (preV ++ (skipWs ((skipWs cs₂).tail)).drop preV.length).head? = some h' → True := fun _ _ => trivial
                by_cases hcom : (skipWs cs₄).head? = some ','
                · rw [if_pos hcom] at h
                  cases hms : parseMembers g (skipWs ((skipWs cs₄).tail)) with
                  | none => rw [hms] at h; exact Option.noConfusion h
                  | some r =>
                    obtain ⟨ms', cs₆⟩ := r
                    rw [hms] at h
                    simp only [Option.some.injEq, Prod.mk.injEq] at h
                    obtain ⟨hmseq, hrest⟩ := h
                    subst hmseq
                    subst hrest
                    obtain ⟨hWFms, preMS, hpreMS, hMShead, hMSlast, hMSreplay⟩ :=
                      (IH g (by omega)).2.1 _ ms' cs₆ hms
                    obtain ⟨hdec₄, hws₄⟩ := skipWs_decomp cs₄
                    have hcomcons := eq_cons_of_head? _ _ hcom
                    obtain ⟨hdec₅, hws₅⟩ := skipWs_decomp ((skipWs cs₄).tail)
                    have hMSne : preMS ≠ [] := by
                      intro he
                      rw [he] at hMShead
                      simp at hMShead
                    subst hq
                    refine ⟨?_, '"' :: (preK ++ (cs₂.takeWhile isJsonWs ++ (':' ::
                      (((skipWs cs₂).tail).takeWhile isJsonWs ++ (preV ++
                      (cs₄.takeWhile isJsonWs ++ (',' ::
                      (((skipWs cs₄).tail).takeWhile isJsonWs ++ preMS)))))))),
                      ?_, by simp, ?_, ?_⟩
                    · intro m hm
                      rcases List.mem_cons.mp hm with rfl | hm
                      · exact hWFv
                      · exact hWFms m hm
                    · rw [show ('"' :: (preK ++ (cs₂.takeWhile isJsonWs ++ (':' ::
                        (((skipWs cs₂).tail).takeWhile isJsonWs ++ (preV ++
                        (cs₄.takeWhile isJsonWs ++ (',' ::
                        (((skipWs cs₄).tail).takeWhile isJsonWs ++ preMS))))))))) ++ cs₆
                        = '"' :: (preK ++ (cs₂.takeWhile isJsonWs ++ (':' ::
                        (((skipWs cs₂).tail).takeWhile isJsonWs ++ (preV ++
                        (cs₄.takeWhile isJsonWs ++ (',' ::
                        (((skipWs cs₄).tail).takeWhile isJsonWs ++ (preMS ++ cs₆))))))))) from by
                          simp [List.append_assoc]]
                      rw [← hpreMS, ← hdec₅, ← hcomcons, ← hdec₄, ← hpreV, ← hdec₃,
                        ← hcolcons, ← hdec₂, ← hpreK]
                    · rw [show ('"' :: (preK ++ (cs₂.takeWhile isJsonWs ++ (':' ::
                        (((skipWs cs₂).tail).takeWhile isJsonWs ++ (preV ++
                        (cs₄.takeWhile isJsonWs ++ (',' ::
                        (((skipWs cs₄).tail).takeWhile isJsonWs ++ preMS)))))))))
                        = ('"' :: (preK ++ (cs₂.takeWhile isJsonWs ++ (':' ::
                        (((skipWs cs₂).tail).takeWhile isJsonWs ++ (preV ++
                        (cs₄.takeWhile isJsonWs ++ (',' ::
                        ((skipWs cs₄).tail).takeWhile isJsonWs)))))))) ++ preMS from by
                          simp [List.append_assoc]]
                      rw [getLast?_append_of_ne _ _ hMSne]
                      exact hMSlast
                    · intro f' rest' hf' 
                      match f' with
                      | g' + 1 =>
                        rw [show ('"' :: (preK ++ (cs₂.takeWhile isJsonWs ++ (':' ::
                          (((skipWs cs₂).tail).takeWhile isJsonWs ++ (preV ++
                          (cs₄.takeWhile isJsonWs ++ (',' ::
                          (((skipWs cs₄).tail).takeWhile isJsonWs ++ preMS))))))))) ++ rest'
                          = '"' :: (preK ++ (cs₂.takeWhile isJsonWs ++ (':' ::
                          (((skipWs cs₂).tail).takeWhile isJsonWs ++ (preV ++
                          (cs₄.takeWhile isJsonWs ++ (',' ::
                          (((skipWs cs₄).tail).takeWhile isJsonWs ++ (preMS ++ rest'))))))))) from by
                            simp [List.append_assoc]]
                        rw [parseMembers.eq_def]
                        try dsimp only []
                        rw [if_pos rfl, hKreplay]
                        try dsimp only []
                        rw [skipWs_append _ _ hws₂ (by
                          intro h' hh'
                          simp only [List.head?_cons, Option.some.injEq] at hh'
                          subst hh'
                          decide)]
                        rw [if_pos (by simp)]
                        try dsimp only []
                        rw [show (':' :: (((skipWs cs₂).tail).takeWhile isJsonWs ++ (preV ++
                          (cs₄.takeWhile isJsonWs ++ (',' ::
                          (((skipWs cs₄).tail).takeWhile isJsonWs ++ (preMS ++ rest'))))))).tail
                          = ((skipWs cs₂).tail).takeWhile isJsonWs ++ (preV ++
                          (cs₄.takeWhile isJsonWs ++ (',' ::
                          (((skipWs cs₄).tail).takeWhile isJsonWs ++ (preMS ++ rest'))))) from rfl]
                        rw [skipWs_append _ _ hws₃ (by
                          intro h' hh'
                          rw [head?_append_of_ne _ _ hVne] at hh'
                          have := isStartChar_not_jsonws h' (hVhead h' hh')
                          simp [this])]
                        rw [hVreplay g' _ (by
                          simp only [List.length_cons, List.length_append] at hf' ⊢
                          omega) (by
                          apply noExtendL_ws_delim _ _ _ hws₄
                          decide)]
                        try dsimp only []
                        rw [skipWs_append _ _ hws₄ (by
                          intro h' hh'
                          simp only [List.head?_cons, Option.some.injEq] at hh'
                          subst hh'
                          decide)]
                        rw [if_pos (by simp)]
                        try dsimp only []
                        rw [show (',' :: (((skipWs cs₄).tail).takeWhile isJsonWs ++ (preMS ++ rest'))).tail
                          = ((skipWs cs₄).tail).takeWhile isJsonWs ++ (preMS ++ rest') from rfl]
                        rw [skipWs_append _ _ hws₅ (by
                          intro h' hh'
                          rw [head?_append_of_ne _ _ hMSne, hMShead] at hh'
                          have := Option.some.inj hh'
                          subst this
                          decide)]
                        rw [hMSreplay g' rest' (by
                          simp only [List.length_cons, List.length_append] at hf' ⊢
                          omega)]
                · by_cases hbrc : (skipWs cs₄).head? = some '}'
                  · rw [if_neg hcom, if_pos hbrc] at h
                    simp only [Option.some.injEq, Prod.mk.injEq] at h
                    obtain ⟨hmseq, hrest⟩ := h
                    subst hmseq
                    obtain ⟨hdec₄, hws₄⟩ := skipWs_decomp cs₄
                    have hbrccons := eq_cons_of_head? _ _ hbrc
                    subst hq
                    refine ⟨?_, '"' :: (preK ++ (cs₂.takeWhile isJsonWs ++ (':' ::
                      (((skipWs cs₂).tail).takeWhile isJsonWs ++ (preV ++
                      (cs₄.takeWhile isJsonWs ++ ['}'])))))),
                      ?_, by simp, ?_, ?_⟩
                    · intro m hm
                      rcases List.mem_cons.mp hm with rfl | hm
                      · exact hWFv
                      · simp at hm
                    · rw [← hrest]
                      rw [show ('"' :: (preK ++ (cs₂.takeWhile isJsonWs ++ (':' ::
                        (((skipWs cs₂).tail).takeWhile isJsonWs ++ (preV ++
                        (cs₄.takeWhile isJsonWs ++ ['}'])))))))
                        ++ (skipWs cs₄).tail
                        = '"' :: (preK ++ (cs₂.takeWhile isJsonWs ++ (':' ::
                        (((skipWs cs₂).tail).takeWhile isJsonWs ++ (preV ++
                        (cs₄.takeWhile isJsonWs ++ ('}' :: (skipWs cs₄).tail))))))) from by
                          simp [List.append_assoc]]
                      rw [← hbrccons, ← hdec₄, ← hpreV, ← hdec₃, ← hcolcons, ← hdec₂, ← hpreK]
                    · rw [show ('"' :: (preK ++ (cs₂.takeWhile isJsonWs ++ (':' ::
                        (((skipWs cs₂).tail).takeWhile isJsonWs ++ (preV ++
                        (cs₄.takeWhile isJsonWs ++ ['}'])))))))
                        = ('"' :: (preK ++ (cs₂.takeWhile isJsonWs ++ (':' ::
                        (((skipWs cs₂).tail).takeWhile isJsonWs ++ (preV ++
                        cs₄.takeWhile isJsonWs)))))) ++ ['}'] from by
                          simp [List.append_assoc]]
                      rw [List.getLast?_concat]
                    · intro f' rest' hf'
                      match f' with
                      | g' + 1 =>
                        rw [show ('"' :: (preK ++ (cs₂.takeWhile isJsonWs ++ (':' ::
                          (((skipWs cs₂).tail).takeWhile isJsonWs ++ (preV ++
                          (cs₄.takeWhile isJsonWs ++ ['}'])))))))
                          ++ rest'
                          = '"' :: (preK ++ (cs₂.takeWhile isJsonWs ++ (':' ::
                          (((skipWs cs₂).tail).takeWhile isJsonWs ++ (preV ++
                          (cs₄.takeWhile isJsonWs ++ ('}' :: rest'))))))) from by
                            simp [List.append_assoc]]
                        rw [parseMembers.eq_def]
                        try dsimp only []
                        rw [if_pos rfl, hKreplay]
                        try dsimp only []
                        rw [skipWs_append _ _ hws₂ (by
                          intro h' hh'
                          simp only [List.head?_cons, Option.some.injEq] at hh'
                          subst hh'
                          decide)]
                        rw [if_pos (by simp)]
                        try dsimp only []
                        rw [show (':' :: (((skipWs cs₂).tail).takeWhile isJsonWs ++ (preV ++
                          (cs₄.takeWhile isJsonWs ++ ('}' :: rest'))))).tail
                          = ((skipWs cs₂).tail).takeWhile isJsonWs ++ (preV ++
                          (cs₄.takeWhile isJsonWs ++ ('}' :: rest'))) from rfl]
                        rw [skipWs_append _ _ hws₃ (by
                          intro h' hh'
                          rw [head?_append_of_ne _ _ hVne] at hh'
                          have := isStartChar_not_jsonws h' (hVhead h' hh')
                          simp [this])]
                        rw [hVreplay g' _ (by
                          simp only [List.length_cons, List.length_append] at hf' ⊢
                          omega) (by
                          apply noExtendL_ws_delim _ _ _ hws₄
                          decide)]
                        try dsimp only []
                        rw [skipWs_append _ _ hws₄ (by
                          intro h' hh'
                          simp only [List.head?_cons, Option.some.injEq] at hh'
                          subst hh'
                          decide)]
                        rw [if_neg (by simp), if_pos (by simp)]
                        rfl
                  · rw [if_neg hcom, if_neg hbrc] at h
                    exact Option.noConfusion h
            · rw [if_neg hcol] at h
              exact Option.noConfusion h
        · rw [if_neg hq] at h
          exact Option.noConfusion h
  · -- MasterElemsP
    intro cs l rest h
    match f with
    | 0 =>
      rw [parseElems.eq_def] at h
      exact Option.noConfusion h
    | g + 1 =>
      rw [parseElems.eq_def] at h
      try dsimp only [] at h
      cases hpv : parseVal g cs with
      | none => rw [hpv] at h; exact Option.noConfusion h
      | some p =>
        obtain ⟨v, cs₂⟩ := p
        rw [hpv] at h
        try dsimp only [] at h
        obtain ⟨hWFv, preV, hpreV, hVne, hVhead, hVlast, hVreplay⟩ :=
          (IH g (by omega)).1 _ v cs₂ hpv
        obtain ⟨hdec₁, hws₁⟩ := skipWs_decomp cs₂
        by_cases hcom : (skipWs cs₂).head? = some ','
        · rw [if_pos hcom] at h
          cases hes : parseElems g (skipWs ((skipWs cs₂).tail)) with
          | none => rw [hes] at h; exact Option.noConfusion h
          | some r =>
            obtain ⟨vs, cs₄⟩ := r
            rw [hes] at h
            simp only [Option.some.injEq, Prod.mk.injEq] at h
            obtain ⟨hleq, hrest⟩ := h
            subst hleq
            subst hrest
            obtain ⟨hWFes, preE, hpreE, hEne, hEhead, hElast, hEreplay⟩ :=
              (IH g (by omega)).2.2 _ vs cs₄ hes
            have hcomcons := eq_cons_of_head? _ _ hcom
            obtain ⟨hdec₂, hws₂⟩ := skipWs_decomp ((skipWs cs₂).tail)
            refine ⟨?_, preV ++ (cs₂.takeWhile isJsonWs ++ (',' ::
              (((skipWs cs₂).tail).takeWhile isJsonWs ++ preE))),
              ?_, ?_, ?_, ?_, ?_⟩
            · intro x hx
              rcases List.mem_cons.mp hx with rfl | hx
              · exact hWFv
              · exact hWFes x hx
            · rw [show (preV ++ (cs₂.takeWhile isJsonWs ++ (',' ::
                (((skipWs cs₂).tail).takeWhile isJsonWs ++ preE)))) ++ cs₄
                = preV ++ (cs₂.takeWhile isJsonWs ++ (',' ::
                (((skipWs cs₂).tail).takeWhile isJsonWs ++ (preE ++ cs₄)))) from by
                  simp [List.append_assoc]]
              rw [← hpreE, ← hdec₂, ← hcomcons, ← hdec₁, ← hpreV]
            · intro he
              exact hVne (List.append_eq_nil.mp he).1
            · intro h' hh'
              rw [head?_append_of_ne _ _ hVne] at hh'
              exact hVhead h' hh'
            · rw [show preV ++ (cs₂.takeWhile isJsonWs ++ (',' ::
                (((skipWs cs₂).tail).takeWhile isJsonWs ++ preE)))
                = (preV ++ (cs₂.takeWhile isJsonWs ++ (',' ::
                ((skipWs cs₂).tail).takeWhile isJsonWs))) ++ preE from by
                  simp [List.append_assoc]]
              rw [getLast?_append_of_ne _ _ hEne]
              exact hElast
            · intro f' rest' hf'
              match f' with
              | g' + 1 =>
                rw [show (preV ++ (cs₂.takeWhile isJsonWs ++ (',' ::
                  (((skipWs cs₂).tail).takeWhile isJsonWs ++ preE)))) ++ rest'
                  = preV ++ (cs₂.takeWhile isJsonWs ++ (',' ::
                  (((skipWs cs₂).tail).takeWhile isJsonWs ++ (preE ++ rest')))) from by
                    simp [List.append_assoc]]
                rw [parseElems.eq_def]
                try dsimp only []
                rw [hVreplay g' _ (by
                  simp only [List.length_append, List.length_cons] at hf' ⊢
                  omega) (by
                  apply noExtendL_ws_delim _ _ _ hws₁
                  decide)]
                try dsimp only []
                rw [skipWs_append _ _ hws₁ (by
                  intro h' hh'
                  simp only [List.head?_cons, Option.some.injEq] at hh'
                  subst hh'
                  decide)]
                rw [if_pos (by simp)]
                try dsimp only []
                rw [show (',' :: (((skipWs cs₂).tail).takeWhile isJsonWs ++ (preE ++ rest'))).tail
                  = ((skipWs cs₂).tail).takeWhile isJsonWs ++ (preE ++ rest') from rfl]
                rw [skipWs_append _ _ hws₂ (by
                  intro h' hh'
                  rw [head?_append_of_ne _ _ hEne] at hh'
                  have := isStartChar_not_jsonws h' (hEhead h' hh')
                  simp [this])]
                rw [hEreplay g' rest' (by
                  simp only [List.length_append, List.length_cons] at hf' ⊢
                  omega)]
        · by_cases hbr : (skipWs cs₂).head? = some ']'
          · rw [if_neg hcom, if_pos hbr] at h
            simp only [Option.some.injEq, Prod.mk.injEq] at h
            obtain ⟨hleq, hrest⟩ := h
            subst hleq
            have hbrcons := eq_cons_of_head? _ _ hbr
            refine ⟨?_, preV ++ (cs₂.takeWhile isJsonWs ++ [']']),
              ?_, ?_, ?_, ?_, ?_⟩
            · intro x hx
              rcases List.mem_cons.mp hx with rfl | hx
              · exact hWFv
              · simp at hx
            · rw [← hrest]
              rw [show (preV ++ (cs₂.takeWhile isJsonWs ++ [']'])) ++ (skipWs cs₂).tail
                = preV ++ (cs₂.takeWhile isJsonWs ++ (']' :: (skipWs cs₂).tail)) from by
                  simp [List.append_assoc]]
              rw [← hbrcons, ← hdec₁, ← hpreV]
            · intro he
              exact hVne (List.append_eq_nil.mp he).1
            · intro h' hh'
              rw [head?_append_of_ne _ _ hVne] at hh'
              exact hVhead h' hh'
            · rw [show preV ++ (cs₂.takeWhile isJsonWs ++ [']'])
                = (preV ++ cs₂.takeWhile isJsonWs) ++ [']'] from by
                  simp [List.append_assoc]]
              rw [List.getLast?_concat]
            · intro f' rest' hf'
              match f' with
              | g' + 1 =>
                rw [show (preV ++ (cs₂.takeWhile isJsonWs ++ [']'])) ++ rest'
                  = preV ++ (cs₂.takeWhile isJsonWs ++ (']' :: rest')) from by
                    simp [List.append_assoc]]
                rw [parseElems.eq_def]
                try dsimp only []
                rw [hVreplay g' _ (by
                  simp only [List.length_append, List.length_cons] at hf' ⊢
                  omega) (by
                  apply noExtendL_ws_delim _ _ _ hws₁
                  decide)]
                try dsimp only []
                rw [skipWs_append _ _ hws₁ (by
                  intro h' hh'
                  simp only [List.head?_cons, Option.some.injEq] at hh'
                  subst hh'
                  decide)]
                rw [if_neg (by simp), if_pos (by simp)]
                rfl
          · rw [if_neg hcom, if_neg hbr] at h
            exact Option.noConfusion h

/-! Round-trip development, part 3: the printed form of a well-formed
value parses back to that value. -/

/-- Skipping whitespace is the identity on input with a non-whitespace
head. -/
theorem skipWs_no (X : List Char) (hX : ∀ h, X.head? = some h → ¬ isJsonWs h) :
    skipWs X = X := by
  cases X with
  | nil => rfl
  | cons x xs =>
    show List.dropWhile isJsonWs (x :: xs) = x :: xs
    rw [List.dropWhile_cons, if_neg]
    simpa using hX x rfl

/-- The printed form of a well-formed value is nonempty and starts with a
value-start character. -/
theorem printVal_head (v : Json) (hv : WF v) :
    printVal v ≠ [] ∧ ∀ c, (printVal v).head? = some c → isStartChar c = true := by
  cases hv with
  | null =>
    refine ⟨by decide, ?_⟩
    intro c hc
    rw [show printVal Json.null = ['n', 'u', 'l', 'l'] from rfl] at hc
    simp only [List.head?_cons, Option.some.injEq] at hc
    subst hc
    decide
  | bool b =>
    cases b with
    | true =>
      refine ⟨by decide, ?_⟩
      intro c hc
      rw [show printVal (Json.bool true) = ['t', 'r', 'u', 'e'] from rfl] at hc
      simp only [List.head?_cons, Option.some.injEq] at hc
      subst hc
      decide
    | false =>
      refine ⟨by decide, ?_⟩
      intro c hc
      rw [show printVal (Json.bool false) = ['f', 'a', 'l', 's', 'e'] from rfl] at hc
      simp only [List.head?_cons, Option.some.injEq] at hc
      subst hc
      decide
  | num lit hsh =>
    obtain ⟨hne, hhead, _⟩ := numShape_facts lit hsh
    refine ⟨hne, ?_⟩
    intro c hc
    have hc' : lit.head? = some c := hc
    rcases hhead c hc' with rfl | hd
    · decide
    · unfold isStartChar
      simp [hd]
  | str s =>
    refine ⟨?_, ?_⟩
    · rw [show printVal (Json.str s) = '"' :: ((s.map escapeChar).flatten ++ ['"']) from rfl]
      simp
    · intro c hc
      rw [show printVal (Json.str s) = '"' :: ((s.map escapeChar).flatten ++ ['"']) from rfl] at hc
      simp only [List.head?_cons, Option.some.injEq] at hc
      subst hc
      decide
  | arr l hl =>
    cases l with
    | nil =>
      refine ⟨by decide, ?_⟩
      intro c hc
      rw [show printVal (Json.arr []) = ['[', ']'] from rfl] at hc
      simp only [List.head?_cons, Option.some.injEq] at hc
      subst hc
      decide
    | cons v vs =>
      refine ⟨?_, ?_⟩
      · rw [show printVal (Json.arr (v :: vs))
          = '[' :: ((printVal v ++ printElemsTail vs) ++ [']']) from rfl]
        simp
      · intro c hc
        rw [show printVal (Json.arr (v :: vs))
          = '[' :: ((printVal v ++ printElemsTail vs) ++ [']']) from rfl] at hc
        simp only [List.head?_cons, Option.some.injEq] at hc
        subst hc
        decide
  | obj l hl =>
    cases l with
    | nil =>
      refine ⟨by decide, ?_⟩
      intro c hc
      rw [show printVal (Json.obj []) = ['\x7b', '\x7d'] from rfl] at hc
      simp only [List.head?_cons, Option.some.injEq] at hc
      subst hc
      decide
    | cons m ms =>
      refine ⟨?_, ?_⟩
      · rw [show printVal (Json.obj (m :: ms))
          = '\x7b' :: ((printStr m.1 ++ ':' :: printVal m.2 ++ printMembersTail ms) ++ ['\x7d']) from rfl]
        simp
      · intro c hc
        rw [show printVal (Json.obj (m :: ms))
          = '\x7b' :: ((printStr m.1 ++ ':' :: printVal m.2 ++ printMembersTail ms) ++ ['\x7d']) from rfl] at hc
        simp only [List.head?_cons, Option.some.injEq] at hc
        subst hc
        decide

/-- Head and nonemptiness of a printed object-member chunk. -/
theorem memberChunk_head (k : List Char) (v : Json) (ms : List (List Char × Json)) :
    (printStr k ++ ':' :: printVal v ++ printMembersTail ms).head? = some '"' ∧
    printStr k ++ ':' :: printVal v ++ printMembersTail ms ≠ [] := by
  constructor
  · rw [head?_append_of_ne _ _ (by
      intro he
      have h1 := (List.append_eq_nil.mp he).1
      simp [printStr] at h1),
      head?_append_of_ne _ _ (by simp [printStr])]
    simp [printStr]
  · intro he
    have h1 := (List.append_eq_nil.mp he).1
    have h2 := (List.append_eq_nil.mp h1).1
    simp [printStr] at h2

/-- What follows a printed element inside an array cannot extend a number
token: it opens with a comma or with the closing delimiter. -/
theorem noExtendL_elemsTail (vs : List Json) (d : Char) (X : List Char)
    (hd : (isDigitC d || d = '.' || d = 'e' || d = 'E') = false) :
    noExtendL (printElemsTail vs ++ (d :: X)) = true := by
  apply noExtendL_mk
  intro c hc
  cases vs with
  | nil =>
    rw [show printElemsTail ([] : List Json) ++ (d :: X) = d :: X from rfl] at hc
    simp only [List.head?_cons, Option.some.injEq] at hc
    subst hc
    exact hd
  | cons v₂ vs' =>
    rw [show printElemsTail (v₂ :: vs') ++ (d :: X)
      = ',' :: ((printVal v₂ ++ printElemsTail vs') ++ (d :: X)) from by
        rw [show printElemsTail (v₂ :: vs') = (',' :: printVal v₂) ++ printElemsTail vs' from rfl]
        simp [List.append_assoc]] at hc
    simp only [List.head?_cons, Option.some.injEq] at hc
    subst hc
    decide

/-- What follows a printed member inside an object cannot extend a number
token: it opens with a comma or with the closing delimiter. -/
theorem noExtendL_membersTail (ms : List (List Char × Json)) (d : Char) (X : List Char)
    (hd : (isDigitC d || d = '.' || d = 'e' || d = 'E') = false) :
    noExtendL (printMembersTail ms ++ (d :: X)) = true := by
  apply noExtendL_mk
  intro c hc
  cases ms with
  | nil =>
    rw [show printMembersTail ([] : List (List Char × Json)) ++ (d :: X) = d :: X from rfl] at hc
    simp only [List.head?_cons, Option.some.injEq] at hc
    subst hc
    exact hd
  | cons m ms' =>
    rw [show printMembersTail (m :: ms') ++ (d :: X)
      = ',' :: ((printStr m.1 ++ ':' :: printVal m.2 ++ printMembersTail ms') ++ (d :: X)) from by
        rw [show printMembersTail (m :: ms')
          = (',' :: printStr m.1 ++ ':' :: printVal m.2) ++ printMembersTail ms' from rfl]
        simp [List.append_assoc]] at hc
    simp only [List.head?_cons, Option.some.injEq] at hc
    subst hc
    decide

theorem rtMaster : ∀ f, RTValP f ∧ RTElemsP f ∧ RTMembersP f := by
  intro f
  induction f using Nat.strong_induction_on with
  | _ f IH =>
  refine ⟨?_, ?_, ?_⟩
  · -- RTValP
    intro v rest' hv hlen hne
    match f with
    | 0 => exact absurd hlen (by omega)
    | g + 1 =>
      cases hv with
      | null =>
        rw [show printVal Json.null ++ rest' = 'n' :: ('u' :: 'l' :: 'l' :: rest') from rfl,
          parseVal.eq_def]
        try dsimp only []
        rw [if_neg (by decide), if_neg (by decide), if_neg (by decide), if_neg (by decide),
          if_neg (by decide), if_pos rfl,
          if_pos (by exact hasPre_append ['u', 'l', 'l'] rest')]
        rfl
      | bool b =>
        cases b with
        | true =>
          rw [show printVal (Json.bool true) ++ rest' = 't' :: ('r' :: 'u' :: 'e' :: rest') from rfl,
            parseVal.eq_def]
          try dsimp only []
          rw [if_neg (by decide), if_neg (by decide), if_neg (by decide), if_pos rfl,
            if_pos (by exact hasPre_append ['r', 'u', 'e'] rest')]
          rfl
        | false =>
          rw [show printVal (Json.bool false) ++ rest'
            = 'f' :: ('a' :: 'l' :: 's' :: 'e' :: rest') from rfl, parseVal.eq_def]
          try dsimp only []
          rw [if_neg (by decide), if_neg (by decide), if_neg (by decide), if_neg (by decide),
            if_pos rfl, if_pos (by exact hasPre_append ['a', 'l', 's', 'e'] rest')]
          rfl
      | num lit hsh =>
        obtain ⟨hlne, hhead, _⟩ := numShape_facts lit hsh
        cases lit with
        | nil => exact absurd rfl hlne
        | cons c lt =>
          have hc := hhead c rfl
          rw [show printVal (Json.num (c :: lt)) ++ rest' = c :: (lt ++ rest') from rfl,
            parseVal.eq_def]
          try dsimp only []
          rw [if_neg (by
              rcases hc with rfl | hd
              · decide
              · exact isDigitC_ne_of c '"' hd (by decide)),
            if_neg (by
              rcases hc with rfl | hd
              · decide
              · exact isDigitC_ne_of c '\x7b' hd (by decide)),
            if_neg (by
              rcases hc with rfl | hd
              · decide
              · exact isDigitC_ne_of c '[' hd (by decide)),
            if_neg (by
              rcases hc with rfl | hd
              · decide
              · exact isDigitC_ne_of c 't' hd (by decide)),
            if_neg (by
              rcases hc with rfl | hd
              · decide
              · exact isDigitC_ne_of c 'f' hd (by decide)),
            if_neg (by
              rcases hc with rfl | hd
              · decide
              · exact isDigitC_ne_of c 'n' hd (by decide))]
          rw [show c :: (lt ++ rest') = (c :: lt) ++ rest' from rfl]
          exact parseNumber_replay (c :: lt) rest' hsh hne
      | str s =>
        rw [show printVal (Json.str s) ++ rest'
          = '"' :: ((s.map escapeChar).flatten ++ ('"' :: rest')) from by
            rw [show printVal (Json.str s)
              = '"' :: ((s.map escapeChar).flatten ++ ['"']) from rfl]
            simp [List.append_assoc]]
        rw [parseVal.eq_def]
        try dsimp only []
        rw [if_pos rfl, printStr_parse]
        rfl
      | arr l hl =>
        cases l with
        | nil =>
          rw [show printVal (Json.arr []) ++ rest' = '[' :: (']' :: rest') from rfl,
            parseVal.eq_def]
          try dsimp only []
          rw [if_neg (by decide), if_neg (by decide), if_pos rfl]
          rw [skipWs_no (']' :: rest') (by
            intro h hh
            simp only [List.head?_cons, Option.some.injEq] at hh
            subst hh
            decide)]
          rw [if_pos (by simp)]
          rfl
        | cons v vs =>
          have hv := hl v (by simp)
          have hvs : ∀ x ∈ vs, WF x := fun x hx => hl x (by simp [hx])
          obtain ⟨hvne, hvhead⟩ := printVal_head v hv
          have hAne : printVal v ++ printElemsTail vs ≠ [] := by
            intro he
            exact hvne (List.append_eq_nil.mp he).1
          have hlen' : (printVal v ++ printElemsTail vs).length + 1 < g := by
            rw [show printVal (Json.arr (v :: vs))
              = '[' :: ((printVal v ++ printElemsTail vs) ++ [']']) from rfl] at hlen
            simp only [List.length_cons, List.length_append] at hlen ⊢
            omega
          rw [show printVal (Json.arr (v :: vs)) ++ rest'
            = '[' :: ((printVal v ++ printElemsTail vs) ++ (']' :: rest')) from by
              rw [show printVal (Json.arr (v :: vs))
                = '[' :: ((printVal v ++ printElemsTail vs) ++ [']']) from rfl]
              simp [List.append_assoc]]
          rw [parseVal.eq_def]
          try dsimp only []
          rw [if_neg (by decide), if_neg (by decide), if_pos rfl]
          rw [skipWs_no ((printVal v ++ printElemsTail vs) ++ (']' :: rest')) (by
            intro h hh
            rw [head?_append_of_ne _ _ hAne, head?_append_of_ne _ _ hvne] at hh
            have := isStartChar_not_jsonws h (hvhead h hh)
            simp [this])]
          rw [if_neg (by
            intro hh
            rw [head?_append_of_ne _ _ hAne, head?_append_of_ne _ _ hvne] at hh
            exact absurd (hvhead ']' hh) (by decide))]
          rw [(IH g (by omega)).2.1 v vs rest' hv hvs hlen']
          rfl
      | obj l hl =>
        cases l with
        | nil =>
          rw [show printVal (Json.obj []) ++ rest' = '\x7b' :: ('\x7d' :: rest') from rfl,
            parseVal.eq_def]
          try dsimp only []
          rw [if_neg (by decide), if_pos rfl]
          rw [skipWs_no ('\x7d' :: rest') (by
            intro h hh
            simp only [List.head?_cons, Option.some.injEq] at hh
            subst hh
            decide)]
          rw [if_pos (by simp)]
          rfl
        | cons m ms =>
          have hv := hl m (by simp)
          have hms : ∀ x ∈ ms, WF x.2 := fun x hx => hl x (by simp [hx])
          obtain ⟨hBhead, hBne⟩ := memberChunk_head m.1 m.2 ms
          have hlen' : (printStr m.1 ++ ':' :: printVal m.2 ++ printMembersTail ms).length + 1 < g := by
            rw [show printVal (Json.obj (m :: ms))
              = '\x7b' :: ((printStr m.1 ++ ':' :: printVal m.2 ++ printMembersTail ms) ++ ['\x7d']) from rfl] at hlen
            simp only [List.length_cons, List.length_append] at hlen ⊢
            omega
          rw [show printVal (Json.obj (m :: ms)) ++ rest'
            = '\x7b' :: ((printStr m.1 ++ ':' :: printVal m.2 ++ printMembersTail ms) ++ ('\x7d' :: rest')) from by
              rw [show printVal (Json.obj (m :: ms))
                = '\x7b' :: ((printStr m.1 ++ ':' :: printVal m.2 ++ printMembersTail ms) ++ ['\x7d']) from rfl]
              simp [List.append_assoc]]
          rw [parseVal.eq_def]
          try dsimp only []
          rw [if_neg (by decide), if_pos rfl]
          rw [skipWs_no ((printStr m.1 ++ ':' :: printVal m.2 ++ printMembersTail ms) ++ ('\x7d' :: rest')) (by
            intro h hh
            rw [head?_append_of_ne _ _ hBne, hBhead] at hh
            have := Option.some.inj hh
            subst this
            decide)]
          rw [if_neg (by
            intro hh
            rw [head?_append_of_ne _ _ hBne, hBhead] at hh
            have := Option.some.inj hh
            exact absurd this (by decide))]
          rw [(IH g (by omega)).2.2 m.1 m.2 ms rest' hv hms hlen']
          rfl
  · -- RTElemsP
    intro v vs rest' hv hvs hlen
    match f with
    | 0 => exact absurd hlen (by omega)
    | g + 1 =>
      obtain ⟨hvne, hvhead⟩ := printVal_head v hv
      cases vs with
      | nil =>
        rw [parseElems.eq_def]
        try dsimp only []
        rw [show (printVal v ++ printElemsTail []) ++ (']' :: rest')
          = printVal v ++ (']' :: rest') from by
            rw [show printElemsTail ([] : List Json) = [] from rfl]
            simp]
        rw [(IH g (by omega)).1 v (']' :: rest') hv (by
          rw [show printElemsTail ([] : List Json) = [] from rfl] at hlen
          simp only [List.length_append, List.length_nil] at hlen
          omega) (by
          exact noExtendL_mk _ (by
            intro c hc
            simp only [List.head?_cons, Option.some.injEq] at hc
            subst hc
            decide))]
        try dsimp only []
        rw [skipWs_no (']' :: rest') (by
          intro h hh
          simp only [List.head?_cons, Option.some.injEq] at hh
          subst hh
          decide)]
        rw [if_neg (by simp), if_pos (by simp)]
        rfl
      | cons v₂ vs' =>
        have hv₂ := hvs v₂ (by simp)
        have hvs' : ∀ x ∈ vs', WF x := fun x hx => hvs x (by simp [hx])
        obtain ⟨hv₂ne, hv₂head⟩ := printVal_head v₂ hv₂
        have hA₂ne : printVal v₂ ++ printElemsTail vs' ≠ [] := by
          intro he
          exact hv₂ne (List.append_eq_nil.mp he).1
        rw [parseElems.eq_def]
        try dsimp only []
        rw [show (printVal v ++ printElemsTail (v₂ :: vs')) ++ (']' :: rest')
          = printVal v ++ (',' :: ((printVal v₂ ++ printElemsTail vs') ++ (']' :: rest'))) from by
            rw [show printElemsTail (v₂ :: vs')
              = (',' :: printVal v₂) ++ printElemsTail vs' from rfl]
            simp [List.append_assoc]]
        rw [(IH g (by omega)).1 v _ hv (by
          simp only [List.length_append] at hlen ⊢
          omega) (by
          exact noExtendL_mk _ (by
            intro c hc
            simp only [List.head?_cons, Option.some.injEq] at hc
            subst hc
            decide))]
        try dsimp only []
        rw [skipWs_no (',' :: ((printVal v₂ ++ printElemsTail vs') ++ (']' :: rest'))) (by
          intro h hh
          simp only [List.head?_cons, Option.some.injEq] at hh
          subst hh
          decide)]
        rw [if_pos (by simp)]
        try dsimp only []
        rw [show (',' :: ((printVal v₂ ++ printElemsTail vs') ++ (']' :: rest'))).tail
          = (printVal v₂ ++ printElemsTail vs') ++ (']' :: rest') from rfl]
        rw [skipWs_no ((printVal v₂ ++ printElemsTail vs') ++ (']' :: rest')) (by
          intro h hh
          rw [head?_append_of_ne _ _ hA₂ne, head?_append_of_ne _ _ hv₂ne] at hh
          have := isStartChar_not_jsonws h (hv₂head h hh)
          simp [this])]
        rw [(IH g (by omega)).2.1 v₂ vs' rest' hv₂ hvs' (by
          rw [show printElemsTail (v₂ :: vs')
            = (',' :: printVal v₂) ++ printElemsTail vs' from rfl] at hlen
          simp only [List.length_append, List.length_cons] at hlen ⊢
          omega)]
  · -- RTMembersP
    intro k v ms rest' hv hms hlen
    match f with
    | 0 => exact absurd hlen (by omega)
    | g + 1 =>
      obtain ⟨hvne, hvhead⟩ := printVal_head v hv
      rw [show (printStr k ++ ':' :: printVal v ++ printMembersTail ms) ++ ('\x7d' :: rest')
        = '"' :: ((k.map escapeChar).flatten ++ ('"' :: (':' ::
          (printVal v ++ (printMembersTail ms ++ ('\x7d' :: rest')))))) from by
          rw [show printStr k = '"' :: ((k.map escapeChar).flatten ++ ['"']) from rfl]
          simp [List.append_assoc]]
      rw [parseMembers.eq_def]
      try dsimp only []
      rw [if_pos rfl, printStr_parse]
      try dsimp only []
      rw [skipWs_no (':' :: (printVal v ++ (printMembersTail ms ++ ('\x7d' :: rest')))) (by
        intro h hh
        simp only [List.head?_cons, Option.some.injEq] at hh
        subst hh
        decide)]
      rw [if_pos (by simp)]
      try dsimp only []
      rw [show (':' :: (printVal v ++ (printMembersTail ms ++ ('\x7d' :: rest')))).tail
        = printVal v ++ (printMembersTail ms ++ ('\x7d' :: rest')) from rfl]
      rw [skipWs_no (printVal v ++ (printMembersTail ms ++ ('\x7d' :: rest'))) (by
        intro h hh
        rw [head?_append_of_ne _ _ hvne] at hh
        have := isStartChar_not_jsonws h (hvhead h hh)
        simp [this])]
      rw [(IH g (by omega)).1 v _ hv (by
        simp only [List.length_append, List.length_cons] at hlen ⊢
        omega) (noExtendL_membersTail ms '\x7d' rest' (by decide))]
      try dsimp only []
      cases ms with
      | nil =>
        rw [show printMembersTail ([] : List (List Char × Json)) ++ ('\x7d' :: rest')
          = '\x7d' :: rest' from rfl]
        rw [skipWs_no ('\x7d' :: rest') (by
          intro h hh
          simp only [List.head?_cons, Option.some.injEq] at hh
          subst hh
          decide)]
        rw [if_neg (by simp), if_pos (by simp)]
        rfl
      | cons m ms' =>
        have hm := hms m (by simp)
        have hms' : ∀ x ∈ ms', WF x.2 := fun x hx => hms x (by simp [hx])
        obtain ⟨hB'head, hB'ne⟩ := memberChunk_head m.1 m.2 ms'
        rw [show printMembersTail (m :: ms') ++ ('\x7d' :: rest')
          = ',' :: ((printStr m.1 ++ ':' :: printVal m.2 ++ printMembersTail ms') ++ ('\x7d' :: rest')) from by
            rw [show printMembersTail (m :: ms')
              = (',' :: printStr m.1 ++ ':' :: printVal m.2) ++ printMembersTail ms' from rfl]
            simp [List.append_assoc]]
        rw [skipWs_no (',' :: ((printStr m.1 ++ ':' :: printVal m.2 ++ printMembersTail ms') ++ ('\x7d' :: rest'))) (by
          intro h hh
          simp only [List.head?_cons, Option.some.injEq] at hh
          subst hh
          decide)]
        rw [if_pos (by simp)]
        try dsimp only []
        rw [show (',' :: ((printStr m.1 ++ ':' :: printVal m.2 ++ printMembersTail ms') ++ ('\x7d' :: rest'))).tail
          = (printStr m.1 ++ ':' :: printVal m.2 ++ printMembersTail ms') ++ ('\x7d' :: rest') from rfl]
        rw [skipWs_no ((printStr m.1 ++ ':' :: printVal m.2 ++ printMembersTail ms') ++ ('\x7d' :: rest')) (by
          intro h hh
          rw [head?_append_of_ne _ _ hB'ne, hB'head] at hh
          have := Option.some.inj hh
          subst this
          decide)]
        rw [(IH g (by omega)).2.2 m.1 m.2 ms' rest' hm hms' (by
          rw [show printMembersTail (m :: ms')
            = (',' :: printStr m.1 ++ ':' :: printVal m.2) ++ printMembersTail ms' from rfl] at hlen
          simp only [List.length_append, List.length_cons] at hlen ⊢
          omega)]

/-! Round-trip development, part 4: assembly for the Output Normalizer. -/

/-- JSON whitespace is Python whitespace. -/
theorem isJsonWs_isPyWs (c : Char) (h : isJsonWs c = true) : isPyWs c = true := by
  simp [isPyWs, h]

/-- Dropping Python whitespace jumps over an all-whitespace prefix and
stops at a non-whitespace head. -/
theorem dropPyWs_append (a X : List Char) (ha : ∀ c ∈ a, isPyWs c)
    (hX : ∀ h, X.head? = some h → ¬ isPyWs h) : (a ++ X).dropWhile isPyWs = X := by
  induction a with
  | nil =>
    cases X with
    | nil => rfl
    | cons x xs =>
      show List.dropWhile isPyWs (x :: xs) = x :: xs
      rw [List.dropWhile_cons, if_neg]
      simpa using hX x rfl
  | cons c cs ih =>
    show List.dropWhile isPyWs (c :: (cs ++ X)) = X
    rw [List.dropWhile_cons, if_pos (by simpa using ha c (by simp))]
    exact ih (fun d hd => ha d (by simp [hd]))

/-- An exhausted `dropWhile` means every element satisfied the predicate. -/
theorem dropWhile_nil_all (p : Char → Bool) (l : List Char)
    (h : l.dropWhile p = []) : ∀ c ∈ l, p c := by
  induction l with
  | nil => intro c hc; simp at hc
  | cons x xs ih =>
    intro c hc
    rw [List.dropWhile_cons] at h
    by_cases hx : p x
    · rw [if_pos hx] at h
      rcases List.mem_cons.mp hc with rfl | hc'
      · exact hx
      · exact ih h c hc'
    · rw [if_neg hx] at h
      exact absurd h (by simp)

/-- Value-start characters are not the backquote that opens a code fence. -/
theorem isStartChar_ne_fence (c : Char) (h : isStartChar c = true) :
    c ≠ Char.ofNat 96 := by
  unfold isStartChar at h
  simp only [Bool.or_eq_true, decide_eq_true_eq] at h
  rcases h with ((((((h | h) | h) | h) | h) | h) | h) | h
  · subst h; decide
  · subst h; decide
  · subst h; decide
  · subst h; decide
  · subst h; decide
  · subst h; decide
  · subst h; decide
  · exact isDigitC_ne_of c (Char.ofNat 96) h (by decide)

/-- Analysis of a successful `loads`: Python-stripping the input leaves
exactly the parsed span, which is nonempty, starts at a value-start
character, and replays to the same value. -/
theorem loads_strip_decomp (s : String) (v : Json) (h : loads s = some v) :
    WF v ∧ ∃ pre, pyTrim s.data = pre ∧ pre ≠ [] ∧
      (∀ c, pre.head? = some c → isStartChar c = true) ∧
      (∀ f' rest', pre.length < f' → noExtendL rest' = true →
        parseVal f' (pre ++ rest') = some (v, rest')) := by
  simp only [loads, loadsL] at h
  cases hpv : parseVal ((skipWs s.data).length + 1) (skipWs s.data) with
  | none => rw [hpv] at h; exact Option.noConfusion h
  | some p =>
    obtain ⟨w, rest⟩ := p
    rw [hpv] at h
    try dsimp only [] at h
    by_cases hr : skipWs rest = []
    · rw [if_pos hr] at h
      have hw := Option.some.inj h
      subst hw
      obtain ⟨hWF, pre, hdec, hne, hhead, hlast, hreplay⟩ :=
        (parserMaster ((skipWs s.data).length + 1)).1 _ w rest hpv
      have hallrest : ∀ c ∈ rest, isJsonWs c := dropWhile_nil_all isJsonWs rest hr
      have h1 : s.data.dropWhile isPyWs = pre ++ rest := by
        conv_lhs => rw [(skipWs_decomp s.data).1]
        rw [hdec]
        exact dropPyWs_append _ _
          (fun c hc => isJsonWs_isPyWs c ((skipWs_decomp s.data).2 c hc)) (by
            intro h' hh'
            rw [head?_append_of_ne _ _ hne] at hh'
            have := isStartChar_not_pyws h' (hhead h' hh')
            simp [this])
      have h2 : pyTrim s.data = pre := by
        unfold pyTrim
        rw [h1]
        rw [show (pre ++ rest).reverse = rest.reverse ++ pre.reverse from by simp]
        rw [dropPyWs_append _ _
          (fun c hc => isJsonWs_isPyWs c (hallrest c (List.mem_reverse.mp hc))) (by
            intro h' hh'
            rw [List.head?_reverse] at hh'
            have := hlast h' hh'
            simp [this])]
        simp
      exact ⟨hWF, pre, h2, hne, hhead, hreplay⟩
    · rw [if_neg hr] at h
      exact Option.noConfusion h

/-- A stripped successful payload passes the fence check unchanged and
re-parses to the same value, so the normalizer re-serialises it. -/
theorem format_final_output_of_loads (s : String) (v : Json) (h : loads s = some v) :
    format_final_output s = dumps v := by
  obtain ⟨hWF, pre, h2, hne, hhead, hreplay⟩ := loads_strip_decomp s v h
  have hfence : hasPre "```".data pre = false := by
    cases hpre : pre with
    | nil => exact absurd hpre hne
    | cons c cs =>
      have hch := hhead c (by rw [hpre]; rfl)
      have hcb : ¬ (Char.ofNat 96 = c) := fun he => (isStartChar_ne_fence c hch) he.symm
      rw [show ("```".data : List Char)
        = Char.ofNat 96 :: Char.ofNat 96 :: [Char.ofNat 96] from by decide]
      simp [hasPre, hcb]
  have hload : loadsL pre = some v := by
    simp only [loadsL]
    rw [skipWs_no pre (by
      intro h' hh'
      have := isStartChar_not_jsonws h' (hhead h' hh')
      simp [this])]
    rw [show parseVal (pre.length + 1) pre = some (v, []) from by
      have := hreplay (pre.length + 1) [] (by omega) rfl
      simpa using this]
    rfl
  simp only [format_final_output]
  rw [h2, if_neg (by simp [hfence]), hload]

/-- The printed form of a well-formed value parses back to that value. -/
theorem loads_dumps (v : Json) (hWF : WF v) : loads (dumps v) = some v := by
  obtain ⟨hpne, hphead⟩ := printVal_head v hWF
  show loadsL (printVal v) = some v
  simp only [loadsL]
  rw [skipWs_no (printVal v) (by
    intro h' hh'
    have := isStartChar_not_jsonws h' (hphead h' hh')
    simp [this])]
  rw [show parseVal ((printVal v).length + 1) (printVal v) = some (v, []) from by
    have := (rtMaster ((printVal v).length + 1)).1 v [] hWF (by omega) rfl
    simpa using this]
  rfl

/-- C8: parsing the normalizer's output of a JSON-parseable text gives
back exactly the structure parsed from the input. -/
theorem c8_normalizer_round_trip (s : String) (v : Json) (h : loads s = some v) :
    loads (format_final_output s) = some v := by
  rw [format_final_output_of_loads s v h]
  exact loads_dumps v (loads_strip_decomp s v h).1

theorem c8_normalizer_round_trip_witness :
    loads " [12, true, \"ok\", null]\n"
        = some (Json.arr [Json.num ['1', '2'], Json.bool true, Json.str ['o', 'k'], Json.null]) ∧
      loads (format_final_output " [12, true, \"ok\", null]\n")
        = some (Json.arr [Json.num ['1', '2'], Json.bool true, Json.str ['o', 'k'], Json.null]) :=
  ⟨by rfl, c8_normalizer_round_trip _ _ (by rfl)⟩

end Beacons
